import Mathlib

/-!
# Verification of the AibaTS meeting-capture core

A shallow embedding of the meeting-workflow subsystem of the AibaTS
repository, together with proofs and refutations of the frozen claims
about it.

Embedded source files:
* `services/wiki.py` — the Markdown section upsert engine
  (`upsert_meeting_section`, `_find_section_bounds`, `_merge_bullets`);
* `services/journal.py` — the journal date-section appender
  (`ensure_journal_date_section`);
* `services/meeting_index.py` — the meeting index builder
  (`update_index_with_meeting`, `search_index`, `_calculate_relevance_score`);
* `app/ui_main.py` — the persistence stages of the save workflow
  (`_complete_save_workflow`, `_save_json_notes_and_update_index`).

Modelling conventions:
* Python text is modelled as `List Char` internally, with `String`
  wrappers (`String.data` / `String.mk`) at the interface.
* `str.splitlines(keepends=True)` is modelled with Python's full set
  of line-break characters (`\n`, `\r`, `\v`, `\f`, `\x1c`–`\x1e`,
  `\x85`, `U+2028`, `U+2029`), with `\r\n` kept together as a single
  terminator.
* `str.strip()` strips the Python whitespace set, modelled by
  `pyIsSpace` below.
* File I/O is replaced by explicit document values: each operation maps
  the current file contents (and a `changed` flag where the source
  returns one) to the new contents.
-/

namespace AibaTS

/-- One line of text (with its terminating newline, if any). -/
abbrev Line := List Char

/-- Python whitespace (`str.strip()` / `str.split()` / regex `\s`):
ASCII whitespace plus the Unicode space characters. -/
def pyIsSpace (c : Char) : Bool :=
  c = ' ' || c = '\t' || c = '\n' || c = '\u000d' || c = '\u000b' || c = '\u000c' ||
  c = '\u001c' || c = '\u001d' || c = '\u001e' || c = '\u001f' || c = '\u0085' ||
  c = ' ' || c = ' ' ||
  (' ' ≤ c && c ≤ ' ') ||
  c = ' ' || c = ' ' || c = ' ' || c = ' ' || c = '　'

/-- Python `s.strip(chars)` generalised: drop characters satisfying `p`
from both ends. -/
def pyStripP (p : Char → Bool) (cs : List Char) : List Char :=
  ((cs.dropWhile p).reverse.dropWhile p).reverse

/-- Python `s.strip()` (default whitespace). -/
def pyStrip (cs : List Char) : List Char := pyStripP pyIsSpace cs

/-- Python `s.lstrip()`. -/
def pyLstrip (cs : List Char) : List Char := cs.dropWhile pyIsSpace

/-- Python `s.startswith(p)`. -/
def startsWithL (p cs : List Char) : Bool := p.isPrefixOf cs

/-- Python `s.endswith("\n")` specialised to a single character. -/
def endsWithChar (c : Char) (cs : List Char) : Bool :=
  cs.getLast? = some c

/-- Python `needle in hay` (substring containment). -/
def isSubstrL (needle hay : List Char) : Bool :=
  hay.tails.any (fun t => needle.isPrefixOf t)

/-- The line-break characters of Python's `str.splitlines`: `\n`,
`\r`, `\v`, `\f`, the file/group/record separators `\x1c`–`\x1e`, the
next-line character `\x85` and the Unicode line/paragraph separators
`U+2028`/`U+2029`. -/
def isLineBreak (c : Char) : Bool :=
  c = '\n' || c = '\u000d' || c = '\u000b' || c = '\u000c' ||
  c = '\u001c' || c = '\u001d' || c = '\u001e' || c = '\u0085' ||
  c = ' ' || c = ' '

/-- `str.splitlines(keepends=True)`: cut after every line-break
character, keeping the terminator with its line; the pair `\r\n`
counts as a single terminator. -/
def splitLinesK : List Char → List Line
  | [] => []
  | [c] => [[c]]
  | c :: c2 :: rest =>
    if isLineBreak c then
      if c = '\u000d' ∧ c2 = '\n' then
        ['\u000d', '\n'] :: splitLinesK rest
      else [c] :: splitLinesK (c2 :: rest)
    else
      match splitLinesK (c2 :: rest) with
      | [] => [[c]]
      | l :: ls => (c :: l) :: ls

/-- `"".join(lines)`. -/
def joinL (ls : List Line) : List Char := ls.foldr (· ++ ·) []

/-- Helper for `pySplitWs`: accumulate the current word (reversed). -/
def pySplitWsAux : List Char → List Char → List (List Char)
  | [], acc => if acc = [] then [] else [acc.reverse]
  | c :: rest, acc =>
    if pyIsSpace c then
      if acc = [] then pySplitWsAux rest []
      else acc.reverse :: pySplitWsAux rest []
    else pySplitWsAux rest (c :: acc)

/-- Python `s.split()`: split on whitespace runs, discarding empties. -/
def pySplitWs (cs : List Char) : List (List Char) := pySplitWsAux cs []

/-! ## `services/suggest` — the `MeetingSuggestions` value object -/

/-- `MeetingSuggestions` dataclass from `services/suggest/base.py`:
the structured result of note extraction. -/
structure MeetingSuggestions where
  recap : String
  decisions : List String
  actions : List String
  risks : List String
  open_questions : List String
deriving DecidableEq

/-! ## `services/wiki.py` — the Markdown section upsert engine -/

/-- `SECTION_TEMPLATE.format(date=..., name=..., meeting_id=...)`:
the generated meeting-section header line (without terminator). -/
def sectionTemplate (date name mid : List Char) : List Char :=
  "## [".data ++ date ++ "] ".data ++ name ++ "  <!-- id:".data ++ mid ++ " -->".data

/-- Index of the first element satisfying `p` (the linear scans of
`_find_section_bounds` and the subsection loop). -/
def idxFind (p : Line → Bool) : List Line → Option Nat
  | [] => none
  | x :: xs => if p x then some 0 else (idxFind p xs).map (· + 1)

/-- First half of `_find_section_bounds`: index of the first line whose
stripped text equals the stripped header. -/
def findHeaderIdx (lines : List Line) (header : List Char) : Option Nat :=
  idxFind (fun ln => pyStrip ln == pyStrip header) lines

/-- Second half of `_find_section_bounds`: the section ends at the next
line starting with `"## "`, or at end of file. -/
def sectionEndIdx (lines : List Line) (start : Nat) : Nat :=
  match idxFind (fun ln => startsWithL "## ".data ln) (lines.drop (start + 1)) with
  | some j => start + 1 + j
  | none => lines.length

/-- `_find_section_bounds(lines, header_line)`. -/
def findSectionBounds (lines : List Line) (header : List Char) : Option (Nat × Nat) :=
  match findHeaderIdx lines header with
  | none => none
  | some s => some (s, sectionEndIdx lines s)

/-- The bullet text a line contributes to `_merge_bullets`' existing
set: its stripped form must start with `"- "`; the text after the dash
is stripped again. -/
def bulletText (ln : Line) : Option (List Char) :=
  let s := pyStrip ln
  if startsWithL "- ".data s then some (pyStrip (s.drop 2)) else none

/-- The `existing_set` computed by `_merge_bullets` (as a list used
only through membership). -/
def existingBulletSet (lns : List Line) : List (List Char) := lns.filterMap bulletText

/-- The appending loop of `_merge_bullets`. -/
def mergeBulletsGo (merged : List Line) (set : List (List Char)) :
    List (List Char) → List Line
  | [] => merged
  | item :: rest =>
    let n := pyStrip item
    if n ≠ [] ∧ n ∉ set then
      mergeBulletsGo (merged ++ ["- ".data ++ n ++ ['\n']]) (set ++ [n]) rest
    else mergeBulletsGo merged set rest

/-- `_merge_bullets(existing_lines, new_items)`. -/
def mergeBullets (existing : List Line) (newItems : List (List Char)) : List Line :=
  mergeBulletsGo existing (existingBulletSet existing) newItems

/-- `\n` or `\r`: the class `[\n\r]` in `_recap_to_topics`' regex. -/
def isNlCr (c : Char) : Bool := c = '\n' || c = '\u000d'

/-- Sentence-final punctuation for the lookbehind `(?<=[\.!?])`. -/
def isSentencePunct (c : Char) : Bool := c = '.' || c = '!' || c = '?'

/-- `re.split(r"[\n\r]+|(?<=[\.!?])\s+", text)` as a left-to-right
scanner. `mode` 1 means inside a `[\n\r]+` separator run, 2 inside a
post-punctuation whitespace run, 0 ordinary text; `prev` is the
previous character (for the lookbehind); `acc` holds the current part
reversed. -/
def recapSplitGo (prev : Option Char) (mode : Nat) (acc : List Char) :
    List Char → List (List Char)
  | [] => [acc.reverse]
  | c :: rest =>
    if mode = 1 then
      if isNlCr c then recapSplitGo (some c) 1 acc rest
      else recapSplitGo (some c) 0 [c] rest
    else if mode = 2 then
      if pyIsSpace c then recapSplitGo (some c) 2 acc rest
      else recapSplitGo (some c) 0 [c] rest
    else
      if isNlCr c then acc.reverse :: recapSplitGo (some c) 1 [] rest
      else if pyIsSpace c ∧ (prev.map isSentencePunct).getD false then
        acc.reverse :: recapSplitGo (some c) 2 [] rest
      else recapSplitGo (some c) 0 (c :: acc) rest

/-- The characters `_recap_to_topics` trims from each fragment:
`" -â€¢\t"` (the bullet character `•` as mojibake). -/
def isRecapTrimChar (c : Char) : Bool :=
  c = ' ' || c = '-' || c = 'â' || c = '€' || c = '¢' || c = '\t'

/-- Order-preserving de-duplication (the `seen` set loop). -/
def dedupFirst (seen : List (List Char)) : List (List Char) → List (List Char)
  | [] => []
  | t :: ts => if t ∈ seen then dedupFirst seen ts else t :: dedupFirst (seen ++ [t]) ts

/-- `_recap_to_topics(recap_text)`. -/
def recapToTopics (recap : List Char) : List (List Char) :=
  if recap = [] then []
  else
    let parts := recapSplitGo none 0 [] recap
    let topics := parts.filterMap (fun p =>
      let t := pyStripP isRecapTrimChar p
      if 3 ≤ t.length then some t else none)
    (dedupFirst [] topics).take 12

/-- The bullet lines `[f"- {i.strip()}\n" for i in items if i.strip()]`. -/
def bulletsOf (items : List (List Char)) : List Line :=
  items.filterMap (fun i =>
    if pyStrip i ≠ [] then some ("- ".data ++ pyStrip i ++ ['\n']) else none)

/-- `build_subsection(title, items)` (insert path): empty items give no
block at all. -/
def buildSubsection (title : List Char) (items : List (List Char)) : List Line :=
  if items = [] then []
  else ("### ".data ++ title ++ ['\n']) :: (bulletsOf items ++ [['\n']])

/-- The configured `SUBSECTIONS` paired with their candidate items for
a given `MeetingSuggestions`. -/
def subsectionPlan (sug : MeetingSuggestions) : List (List Char × List (List Char)) :=
  [("Topics Discussed".data, recapToTopics sug.recap.data),
   ("To Do".data, sug.actions.map String.data),
   ("Accomplished".data, sug.decisions.map String.data)]

/-- The fresh `section_block` the insert path builds: header line plus
one block per non-empty subsection, then a final newline if the last
line lacks one. -/
def buildSectionBlock (header : List Char) (sug : MeetingSuggestions) : List Line :=
  let block := (header ++ ['\n']) ::
    ((subsectionPlan sug).map (fun p => buildSubsection p.1 p.2)).flatten
  if endsWithChar '\n' ((block.getLast?).getD []) then block else block ++ [['\n']]

/-- The insertion point for a new section: after a leading `# ` heading
and any blank lines that follow it, else the top. -/
def insertIdxOf (lines : List Line) : Nat :=
  match lines with
  | [] => 0
  | first :: rest =>
    if startsWithL "# ".data (pyLstrip first) then
      1 + (rest.takeWhile (fun ln => pyStrip ln == ([] : List Char))).length
    else 0

/-- The insert path of `upsert_meeting_section`: build the section
block, add blank-line separators against non-blank neighbours, and
splice it in at the insertion point. -/
def insertNewSection (lines : List Line) (header : List Char)
    (sug : MeetingSuggestions) : List Line :=
  let block0 := buildSectionBlock header sug
  let idx := insertIdxOf lines
  let block1 :=
    if idx < lines.length ∧ pyStrip (lines.getD idx []) ≠ [] then ['\n'] :: block0
    else block0
  let block2 :=
    if 0 < idx ∧ pyStrip (lines.getD (idx - 1) []) ≠ [] then ['\n'] :: block1
    else block1
  lines.take idx ++ block2 ++ lines.drop idx

/-- Find `### {title}` within the section and its end (next `### ` or
`## ` line, or end of section). -/
def subFind (sec : List Line) (title : List Char) : Option (Nat × Nat) :=
  match idxFind (fun ln => startsWithL ("### ".data ++ title) ln) sec with
  | none => none
  | some i =>
    match idxFind
        (fun ln => startsWithL "### ".data ln || startsWithL "## ".data ln)
        (sec.drop (i + 1)) with
    | some k => some (i, i + 1 + k)
    | none => some (i, sec.length)

/-- The `### `/`## ` terminator test of the subsection loop. -/
def pEnd (ln : Line) : Bool :=
  startsWithL "### ".data ln || startsWithL "## ".data ln

/-- One iteration of the update path's subsection loop. -/
def stepSubsection (st : List Line × Bool) (ti : List Char × List (List Char)) :
    List Line × Bool :=
  let sec := st.1
  let title := ti.1
  let items := ti.2
  if items = [] then st
  else
    match subFind sec title with
    | none =>
      let sec1 :=
        match sec.getLast? with
        | some l => if endsWithChar '\n' l then sec else sec ++ [['\n']]
        | none => sec
      (sec1 ++ (("### ".data ++ title ++ ['\n']) :: (bulletsOf items ++ [['\n']])), true)
    | some (ss, se) =>
      let bullets := (sec.drop (ss + 1)).take (se - (ss + 1))
      let merged := mergeBullets bullets items
      if merged ≠ bullets then (sec.take (ss + 1) ++ merged ++ sec.drop se, true)
      else st

/-- The update path's loop over `SUBSECTIONS`, threading the section
lines and the `modified` flag. -/
def processSubsections (sec : List Line) (sug : MeetingSuggestions) :
    List Line × Bool :=
  (subsectionPlan sug).foldl stepSubsection (sec, false)

/-- `upsert_meeting_section` at the line level (after splitting the
document into lines): returns the new line list and the `modified`
flag. -/
def upsertLines (lines : List Line) (header : List Char)
    (sug : MeetingSuggestions) : List Line × Bool :=
  match findSectionBounds lines header with
  | none => (insertNewSection lines header sug, true)
  | some (s, e) =>
    let sec := (lines.drop s).take (e - s)
    let r := processSubsections sec sug
    (if r.2 then lines.take s ++ r.1 ++ lines.drop e else lines, r.2)

/-- The guard `if content and not content.endswith("\n"): content += "\n"`
at the top of `upsert_meeting_section`. -/
def normalizeContent (cs : List Char) : List Char :=
  if cs ≠ [] ∧ ¬ endsWithChar '\n' cs then cs ++ ['\n'] else cs

/-- `upsert_meeting_section(wiki_path, date, name, meeting_id,
suggestions)`: the file contents before the call are mapped to the
contents after it, plus the returned `modified` flag.  The file is
written back only when `modified` is true. -/
def upsert_meeting_section (content : String) (date name mid : String)
    (sug : MeetingSuggestions) : String × Bool :=
  let header := sectionTemplate date.data name.data mid.data
  let r := upsertLines (splitLinesK (normalizeContent content.data)) header sug
  if r.2 then (String.mk (joinL r.1), true) else (content, false)

/-- No line-break character (in Python's full `splitlines` sense)
occurs in the string. -/
def noBrk (cs : List Char) : Prop := ∀ c ∈ cs, isLineBreak c = false

/-- Every line-break character occurring in the string is a plain
`'\n'` (no `\r`, `\v`, `\f`, … anywhere). -/
def onlyNl (cs : List Char) : Prop :=
  ∀ c ∈ cs, isLineBreak c = true → c = '\n'

/-- A proper newline-terminated line: a break-free body plus `'\n'`.
Rejoining and resplitting a list of such lines is the identity, which
is what connects the in-memory line list written by one call of the
upsert with the line list the next call reads back. -/
def NlLine (l : Line) : Prop := ∃ b, l = b ++ ['\n'] ∧ noBrk b

/-- Saturation of one subsection of a section slice: the subsection is
found, and every candidate item's trimmed text is already present among
the bullets of its line range.  A saturated subsection makes the
corresponding iteration of the update loop a no-op. -/
def SubSat (sec : List Line) (title : List Char) (items : List (List Char)) : Prop :=
  ∃ ss se, subFind sec title = some (ss, se) ∧
    ∀ i ∈ items, pyStrip i = [] ∨
      pyStrip i ∈ existingBulletSet ((sec.drop (ss + 1)).take (se - (ss + 1)))

/-! ## `services/journal.py` — journal date sections -/

/-- The text of a line without its terminating newline (used to state
"a line exactly equal to ..."). -/
def lineContent (l : Line) : List Char :=
  if l.getLast? = some '\n' then l.dropLast else l

/-- The guard `if not content.endswith("\n"): content += "\n"` in
`ensure_journal_date_section` (no emptiness test there). -/
def newlineTerminate (cs : List Char) : List Char :=
  if ¬ endsWithChar '\n' cs then cs ++ ['\n'] else cs

/-- The `'## YYYY-MM-DD\n'` date-section header string. -/
def journalHeader (dateStr : String) : List Char :=
  "## ".data ++ dateStr.data ++ ['\n']

/-- `ensure_journal_date_section(project_wikis_dir, date_str)` on the
journal file's contents.  `none` models a missing file (the source then
creates it with `"# Journal\n\n"`).  The date header is looked up by
substring containment (`header not in content`); when absent, the
header plus a blank line is appended and written; when present, the
file is not written. -/
def ensure_journal_date_section (file : Option String) (dateStr : String) : String :=
  let c0 := file.getD "# Journal\n\n"
  let c1 := newlineTerminate c0.data
  if isSubstrL (journalHeader dateStr) c1 then c0
  else String.mk (c1 ++ journalHeader dateStr ++ ['\n'])

/-! ## `app/ui_main.py` — the persistence stages of the save workflow

`_complete_save_workflow` runs, in program order:
Step 7 `_save_json_notes_and_update_index` (which writes the JSON notes
and then updates the meeting index, catching and logging every
exception internally), Step 8 the wiki upsert, Step 9 the journal
append.  Each of steps 7–9 is wrapped in a `try` that re-raises, which
the caller turns into the `Error` state.  The model records the order
in which the four persistence sub-operations *start*, as a trace, as a
function of which underlying operations succeed; the meeting-index
update itself cannot affect control flow (its failure is swallowed), so
only the other outcomes appear. -/

/-- The four persistence sub-operations of the save workflow. -/
inductive SaveStage where
  | persistNotes
  | updateIndex
  | persistWiki
  | persistJournal
deriving DecidableEq

/-- Which underlying operations succeed (raise no exception). -/
structure StageOutcomes where
  notesOk : Bool
  wikiOk : Bool
  journalOk : Bool
deriving DecidableEq

/-- `_save_json_notes_and_update_index`: writes the JSON notes, then
updates the index; its blanket `except` swallows any failure, so it
always returns normally.  Result: the stages that start. -/
def save_json_notes_and_update_index (notesOk : Bool) : List SaveStage :=
  if notesOk then [SaveStage.persistNotes, SaveStage.updateIndex]
  else [SaveStage.persistNotes]

/-- `_complete_save_workflow`: trace of started stages, paired with
whether the workflow raises (which the caller maps to the `Error`
state). -/
def complete_save_workflow (o : StageOutcomes) : List SaveStage × Bool :=
  let t1 := save_json_notes_and_update_index o.notesOk
  let t2 := t1 ++ [SaveStage.persistWiki]
  if ¬ o.wikiOk then (t2, true)
  else
    let t3 := t2 ++ [SaveStage.persistJournal]
    if ¬ o.journalOk then (t3, true) else (t3, false)

/-! ## `services/meeting_index.py` — the meeting index -/

/-- `MeetingIndexEntry` dataclass. -/
structure MeetingIndexEntry where
  meeting_id : String
  timestamp : Int
  date : String
  meeting_name : String
  duration_minutes : Option Int
  project_name : String
  decisions : List String
  action_items : List String
  risks : List String
  open_questions : List String
  full_transcript : String
  json_file_path : String
  transcript_file_path : Option String
  word_count : Nat
  keywords : List String
deriving DecidableEq

/-- `MeetingIndex` dataclass. -/
structure MeetingIndex where
  project_name : String
  created_at : String
  updated_at : String
  total_meetings : Nat
  meetings : List MeetingIndexEntry
deriving DecidableEq

/-- Stable insertion for a descending sort by `key` (Python
`list.sort(key=..., reverse=True)` is stable; an element is placed
before every later element whose key is not larger). -/
def insertDescBy {α : Type} {β : Type} [LinearOrder β] (key : α → β) (x : α) :
    List α → List α
  | [] => [x]
  | y :: ys => if key y ≤ key x then x :: y :: ys else y :: insertDescBy key x ys

/-- Stable descending sort by `key`. -/
def sortDescBy {α : Type} {β : Type} [LinearOrder β] (key : α → β) :
    List α → List α
  | [] => []
  | x :: xs => insertDescBy key x (sortDescBy key xs)

/-- `update_index_with_meeting(project_name, meeting_id, json_file_path,
transcript_file_path)` on the index file's contents (`disk`, `none`
when the file is missing or unreadable).  Constructing the fresh entry
(`MeetingIndexEntry.from_meeting_data`, which reads the meeting's files)
is abstracted as an `Except`-valued input `made`; the removal of the old
entry happens before the `try` block, while the append, re-sort and save
happen inside it, so when construction raises, nothing is persisted. -/
def update_index_with_meeting (disk : Option MeetingIndex) (project : String)
    (meeting_id : String) (now : String) (made : Except Unit MeetingIndexEntry) :
    Option MeetingIndex :=
  let index := disk.getD ⟨project, now, now, 0, []⟩
  let meetings1 := index.meetings.filter (fun m => m.meeting_id != meeting_id)
  match made with
  | .error _ => disk
  | .ok entry =>
    let ms := sortDescBy (fun m => m.timestamp) (meetings1 ++ [entry])
    some { index with meetings := ms, total_meetings := ms.length, updated_at := now }

/-- `str.lower()`.  (Python lowercases the full Unicode range;
`Char.toLower` covers ASCII, which is what the stored fields use.) -/
def pyLower (cs : List Char) : List Char := cs.map Char.toLower

/-- The `search_fields` list of `_calculate_relevance_score`:
lowercased field text paired with its weight.  The Python weights
`3.0, 2.5, 2.5, 2.0, 2.0, 1.5, 1.0` are exact dyadic values, modelled
as rationals. -/
def searchFields (m : MeetingIndexEntry) : List (List Char × ℚ) :=
  [(pyLower m.meeting_name.data, 3),
   (pyLower (String.intercalate " " m.decisions).data, 5/2),
   (pyLower (String.intercalate " " m.action_items).data, 5/2),
   (pyLower (String.intercalate " " m.risks).data, 2),
   (pyLower (String.intercalate " " m.open_questions).data, 2),
   (pyLower (String.intercalate " " m.keywords).data, 3/2),
   (pyLower m.full_transcript.data, 1)]

/-- The per-field contribution: empty fields are skipped (`continue`);
an exact phrase match adds `weight * 10`; every query word that is a
substring adds `weight`. -/
def fieldScore (field : List Char) (w : ℚ) (ql : List Char)
    (qws : List (List Char)) : ℚ :=
  if field = [] then 0
  else
    (if isSubstrL ql field then w * 10 else 0) +
    ((qws.filter (fun word => isSubstrL word field)).length : ℚ) * w

/-- `_calculate_relevance_score(meeting, query_lower, query_words)`. -/
def calculate_relevance_score (m : MeetingIndexEntry) (ql : List Char)
    (qws : List (List Char)) : ℚ :=
  (searchFields m).foldl (fun acc fw => acc + fieldScore fw.1 fw.2 ql qws) 0

/-- `search_index(project_name, query, max_results)` on a loaded index:
score every meeting, keep positive scores, stable-sort by score
descending, truncate, return the entries. -/
def search_index (index : MeetingIndex) (query : String) (maxResults : Nat) :
    List MeetingIndexEntry :=
  let ql := pyLower query.data
  let qws := pySplitWs ql
  let results := index.meetings.filterMap (fun m =>
    let s := calculate_relevance_score m ql qws
    if s > 0 then some (m, s) else none)
  ((sortDescBy (fun r => r.2) results).take maxResults).map Prod.fst

/-- The relevance formula exactly as the specification words it, for
comparison with `calculate_relevance_score`: "for each entry compute a
weighted relevance score summing, per field (name ×3.0, decisions ×2.5,
actions ×2.5, risks ×2.0, open_questions ×2.0, keywords ×1.5,
transcript ×1.0): +10×weight if the exact query phrase is a substring
of the field, plus +weight for each individual query word that is a
substring of the field." -/
def specRelevanceScore (m : MeetingIndexEntry) (ql : List Char)
    (qws : List (List Char)) : ℚ :=
  ([(pyLower m.meeting_name.data, (3 : ℚ)),
    (pyLower (String.intercalate " " m.decisions).data, 5/2),
    (pyLower (String.intercalate " " m.action_items).data, 5/2),
    (pyLower (String.intercalate " " m.risks).data, 2),
    (pyLower (String.intercalate " " m.open_questions).data, 2),
    (pyLower (String.intercalate " " m.keywords).data, 3/2),
    (pyLower m.full_transcript.data, 1)].map (fun fw =>
      (if isSubstrL ql fw.1 then 10 * fw.2 else 0) +
      ((qws.filter (fun word => isSubstrL word fw.1)).length : ℚ) * fw.2)).sum

/-! ## General lemmas about the text and sorting primitives -/

theorem insertDescBy_perm {α β : Type} [LinearOrder β] (key : α → β) (x : α)
    (l : List α) : List.Perm (insertDescBy key x l) (x :: l) := by
  induction l with
  | nil => simp [insertDescBy]
  | cons y ys ih =>
    by_cases h : key y ≤ key x
    · simp [insertDescBy, h]
    · simp only [insertDescBy, if_neg h]
      exact (ih.cons y).trans (List.Perm.swap x y ys)

theorem sortDescBy_perm {α β : Type} [LinearOrder β] (key : α → β)
    (l : List α) : List.Perm (sortDescBy key l) l := by
  induction l with
  | nil => exact List.Perm.refl []
  | cons x xs ih =>
    exact (insertDescBy_perm key x (sortDescBy key xs)).trans (ih.cons x)

theorem mem_insertDescBy {α β : Type} [LinearOrder β] {key : α → β} {x z : α}
    {l : List α} : z ∈ insertDescBy key x l ↔ z = x ∨ z ∈ l := by
  rw [(insertDescBy_perm key x l).mem_iff]
  simp

theorem insertDescBy_pairwise {α β : Type} [LinearOrder β] {key : α → β} (x : α)
    {l : List α} (hl : l.Pairwise (fun a b => key b ≤ key a)) :
    (insertDescBy key x l).Pairwise (fun a b => key b ≤ key a) := by
  induction l with
  | nil => simp [insertDescBy]
  | cons y ys ih =>
    rcases List.pairwise_cons.mp hl with ⟨hy, hys⟩
    by_cases h : key y ≤ key x
    · simp only [insertDescBy, if_pos h]
      refine List.pairwise_cons.mpr ⟨?_, hl⟩
      intro z hz
      rcases List.mem_cons.mp hz with hz | hz
      · exact hz ▸ h
      · exact le_trans (hy z hz) h
    · simp only [insertDescBy, if_neg h]
      refine List.pairwise_cons.mpr ⟨?_, ih hys⟩
      intro z hz
      rcases mem_insertDescBy.mp hz with hz | hz
      · exact hz ▸ le_of_not_le h
      · exact hy z hz

theorem sortDescBy_pairwise {α β : Type} [LinearOrder β] (key : α → β)
    (l : List α) :
    (sortDescBy key l).Pairwise (fun a b => key b ≤ key a) := by
  induction l with
  | nil => simp [sortDescBy]
  | cons x xs ih => exact insertDescBy_pairwise x ih

theorem isPrefixOf_append_self (n b : List Char) : n.isPrefixOf (n ++ b) = true :=
  List.isPrefixOf_iff_prefix.mpr (List.prefix_append n b)

theorem isSubstrL_nil_left (hay : List Char) : isSubstrL [] hay = true := by
  cases hay <;> simp [isSubstrL, List.isPrefixOf]

theorem isSubstrL_of_middle (n a b : List Char) :
    isSubstrL n (a ++ (n ++ b)) = true := by
  induction a with
  | nil =>
    simp only [List.nil_append]
    cases n with
    | nil => exact isSubstrL_nil_left b
    | cons c cs =>
      simp only [isSubstrL, List.cons_append, List.tails_cons, List.any_cons,
        Bool.or_eq_true]
      exact Or.inl (by simp [isPrefixOf_append_self (c :: cs) b])
  | cons c cs ih =>
    simp only [isSubstrL] at ih
    simp only [List.cons_append, isSubstrL, List.tails_cons, List.any_cons,
      Bool.or_eq_true]
    exact Or.inr ih

theorem pySplitWsAux_ne_nil (cs acc : List Char) :
    ∀ w ∈ pySplitWsAux cs acc, w ≠ [] := by
  induction cs generalizing acc with
  | nil =>
    intro w hw
    simp only [pySplitWsAux] at hw
    split at hw
    · simp at hw
    · next h =>
      simp only [List.mem_singleton] at hw
      subst hw
      simpa using h
  | cons c rest ih =>
    intro w hw
    simp only [pySplitWsAux] at hw
    split at hw
    · split at hw
      · exact ih [] w hw
      · next h =>
        rcases List.mem_cons.mp hw with hw | hw
        · subst hw; simpa using h
        · exact ih [] w hw
    · exact ih (c :: acc) w hw

theorem pySplitWs_ne_nil (cs : List Char) : ∀ w ∈ pySplitWs cs, w ≠ [] :=
  pySplitWsAux_ne_nil cs []

/-! ## Claim C5 — order of the persistence stages -/

/-- Claim C5, counterexample: on a fully successful run,
`_complete_save_workflow` starts the stages in the order persist-notes,
update-index, persist-wiki, persist-journal — not the claimed order
persist-notes, persist-wiki, persist-journal, update-index; in
particular the meeting-index update (position 1) starts before the
journal persist (position 3). -/
theorem workflow_order_index_before_journal_cex :
    (complete_save_workflow ⟨true, true, true⟩).1 =
      [SaveStage.persistNotes, SaveStage.updateIndex,
       SaveStage.persistWiki, SaveStage.persistJournal] ∧
    (complete_save_workflow ⟨true, true, true⟩).1 ≠
      [SaveStage.persistNotes, SaveStage.persistWiki,
       SaveStage.persistJournal, SaveStage.updateIndex] ∧
    (complete_save_workflow ⟨true, true, true⟩).1[1]? =
      some SaveStage.updateIndex ∧
    (complete_save_workflow ⟨true, true, true⟩).1[3]? =
      some SaveStage.persistJournal := by
  decide

/-- Claim C5, amended: whenever the JSON-notes write succeeds, the
persistence stages of `_complete_save_workflow` start strictly in the
order persist-notes, update-index, persist-wiki, then (if the wiki
update succeeds) persist-journal; the meeting-index update starts
before the wiki and journal persists. -/
theorem workflow_stage_order (o : StageOutcomes) (h : o.notesOk = true) :
    (complete_save_workflow o).1 =
      [SaveStage.persistNotes, SaveStage.updateIndex, SaveStage.persistWiki] ++
        (if o.wikiOk then [SaveStage.persistJournal] else []) := by
  rcases o with ⟨n, w, j⟩
  subst h
  cases w <;> cases j <;>
    simp [complete_save_workflow, save_json_notes_and_update_index]

/-- Witness for `workflow_stage_order` at a concrete outcome. -/
theorem workflow_stage_order_witness :
    (complete_save_workflow ⟨true, true, false⟩).1 =
      [SaveStage.persistNotes, SaveStage.updateIndex, SaveStage.persistWiki] ++
        (if (true : Bool) then [SaveStage.persistJournal] else []) :=
  workflow_stage_order ⟨true, true, false⟩ rfl

/-! ## Claim C6 — failure of the JSON-notes sub-step -/

/-- Claim C6, counterexample: when the JSON-notes write fails (and the
wiki and journal operations would succeed), the workflow still runs the
wiki and journal sub-steps and finishes without raising — it does not
transition to `Error`, because `_save_json_notes_and_update_index`
catches every exception internally. -/
theorem workflow_notes_failure_not_fatal_cex :
    (complete_save_workflow ⟨false, true, true⟩).1 =
      [SaveStage.persistNotes, SaveStage.persistWiki, SaveStage.persistJournal] ∧
    SaveStage.persistWiki ∈ (complete_save_workflow ⟨false, true, true⟩).1 ∧
    SaveStage.persistJournal ∈ (complete_save_workflow ⟨false, true, true⟩).1 ∧
    (complete_save_workflow ⟨false, true, true⟩).2 = false := by
  decide

/-- Claim C6, amended: if the save-structured-JSON-notes sub-step
fails, the exception is caught and logged inside
`_save_json_notes_and_update_index`; the meeting-index update is
skipped, but the wiki and journal sub-steps still execute, and the
workflow transitions to `Error` only if one of *those* fails. -/
theorem workflow_notes_failure_swallowed (o : StageOutcomes)
    (h : o.notesOk = false) :
    SaveStage.updateIndex ∉ (complete_save_workflow o).1 ∧
    SaveStage.persistWiki ∈ (complete_save_workflow o).1 ∧
    (o.wikiOk = true → SaveStage.persistJournal ∈ (complete_save_workflow o).1) ∧
    (complete_save_workflow o).2 = !(o.wikiOk && o.journalOk) := by
  rcases o with ⟨n, w, j⟩
  subst h
  cases w <;> cases j <;>
    simp [complete_save_workflow, save_json_notes_and_update_index]

/-- Witness for `workflow_notes_failure_swallowed` at a concrete
outcome. -/
theorem workflow_notes_failure_swallowed_witness :
    SaveStage.updateIndex ∉ (complete_save_workflow ⟨false, true, true⟩).1 ∧
    SaveStage.persistWiki ∈ (complete_save_workflow ⟨false, true, true⟩).1 ∧
    ((true : Bool) = true →
      SaveStage.persistJournal ∈ (complete_save_workflow ⟨false, true, true⟩).1) ∧
    (complete_save_workflow ⟨false, true, true⟩).2 = !(true && true) :=
  workflow_notes_failure_swallowed ⟨false, true, true⟩ rfl

/-! ## Claim C10 — failed entry construction persists nothing -/

/-- Claim C10: in `update_index_with_meeting`, the removal of the old
entry happens in memory before the `try` block, while the append,
re-sort and `_save_index` call happen inside it; if constructing the
fresh `MeetingIndexEntry` raises, the exception is caught and the index
file is left exactly as it was. -/
theorem update_index_error_leaves_disk_unchanged
    (disk : Option MeetingIndex) (project meeting_id now : String) :
    update_index_with_meeting disk project meeting_id now (.error ()) = disk :=
  rfl

/-! ## Claim C7 — journal date-section creation -/

/-- Claim C7, counterexample: the date-header lookup is substring
containment, not exact-line equality.  In this document no line is
exactly `## 2024-01-01`, yet `ensure_journal_date_section` appends
nothing (the header occurs inside the middle of a line), contradicting
"appends exactly when no line of the document is exactly equal to
`## <dateStr>`". -/
theorem journal_substring_not_line_cex :
    (∀ l ∈ splitLinesK ("# Journal\nabc ## 2024-01-01\n").data,
      lineContent l ≠ "## 2024-01-01".data) ∧
    ensure_journal_date_section (some "# Journal\nabc ## 2024-01-01\n")
      "2024-01-01" = "# Journal\nabc ## 2024-01-01\n" := by
  decide

/-- Claim C7, amended: `ensure_journal_date_section` appends the header
`## <dateStr>` plus a blank line at the end of the document exactly
when `'## <dateStr>\n'` does not occur as a *substring* of the
(newline-terminated) document; and the operation is idempotent: calling
it again on its own output is a no-op, so N calls append the header at
most once. -/
theorem ensure_journal_append_iff_and_idempotent (file : Option String)
    (dateStr : String) :
    (ensure_journal_date_section file dateStr = file.getD "# Journal\n\n" ↔
      isSubstrL (journalHeader dateStr)
        (newlineTerminate (file.getD "# Journal\n\n").data) = true) ∧
    (isSubstrL (journalHeader dateStr)
        (newlineTerminate (file.getD "# Journal\n\n").data) = false →
      (ensure_journal_date_section file dateStr).data =
        newlineTerminate (file.getD "# Journal\n\n").data ++
          journalHeader dateStr ++ ['\n']) ∧
    ensure_journal_date_section (some (ensure_journal_date_section file dateStr))
      dateStr = ensure_journal_date_section file dateStr := by
  have heval : ∀ (f : Option String),
      ensure_journal_date_section f dateStr =
        if isSubstrL (journalHeader dateStr)
            (newlineTerminate (f.getD "# Journal\n\n").data) then
          f.getD "# Journal\n\n"
        else
          String.mk (newlineTerminate (f.getD "# Journal\n\n").data ++
            journalHeader dateStr ++ ['\n']) := fun _ => rfl
  cases h : isSubstrL (journalHeader dateStr)
      (newlineTerminate (file.getD "# Journal\n\n").data) with
  | true =>
    have hr : ensure_journal_date_section file dateStr =
        file.getD "# Journal\n\n" := by rw [heval file, h]; simp
    refine ⟨by rw [hr]; simp [h], by simp [h], ?_⟩
    rw [hr, heval (some (file.getD "# Journal\n\n"))]
    simp [h]
  | false =>
    have hr : ensure_journal_date_section file dateStr =
        String.mk (newlineTerminate (file.getD "# Journal\n\n").data ++
          journalHeader dateStr ++ ['\n']) := by rw [heval file, h]; simp
    have hends : endsWithChar '\n'
        (newlineTerminate (file.getD "# Journal\n\n").data ++
          journalHeader dateStr ++ ['\n']) = true := by
      simp only [endsWithChar]
      rw [List.getLast?_concat]
      simp
    have hterm : ∀ X : List Char, endsWithChar '\n' X = true →
        newlineTerminate X = X := by
      intro X hX
      unfold newlineTerminate
      simp [hX]
    have hnt : newlineTerminate
        (newlineTerminate (file.getD "# Journal\n\n").data ++
          journalHeader dateStr ++ ['\n']) =
        newlineTerminate (file.getD "# Journal\n\n").data ++
          journalHeader dateStr ++ ['\n'] := hterm _ hends
    have hsub : isSubstrL (journalHeader dateStr)
        (newlineTerminate (file.getD "# Journal\n\n").data ++
          journalHeader dateStr ++ ['\n']) = true := by
      rw [List.append_assoc]
      exact isSubstrL_of_middle _ _ _
    refine ⟨?_, ?_, ?_⟩
    · refine iff_of_false ?_ (by simp [h])
      intro heq
      rw [hr] at heq
      have hdata := congrArg String.data heq
      have hmk : (String.mk (newlineTerminate (file.getD "# Journal\n\n").data ++
          journalHeader dateStr ++ ['\n'])).data =
          newlineTerminate (file.getD "# Journal\n\n").data ++
            journalHeader dateStr ++ ['\n'] := rfl
      rw [hmk] at hdata
      have hge : (file.getD "# Journal\n\n").data.length ≤
          (newlineTerminate (file.getD "# Journal\n\n").data).length := by
        unfold newlineTerminate
        split <;> simp
      have hlen2 := congrArg List.length hdata
      simp only [List.length_append, journalHeader, List.length_cons,
        List.length_nil] at hlen2
      omega
    · intro _
      rw [hr]
    · rw [hr, heval (some (String.mk (newlineTerminate
        (file.getD "# Journal\n\n").data ++ journalHeader dateStr ++ ['\n'])))]
      simp only [Option.getD_some]
      rw [hnt, hsub]
      simp

/-! ## Claim C1 — all-empty suggestions are not a no-op on insert -/

/-- For an all-empty `MeetingSuggestions` every subsection has an empty
candidate list, so the update path's loop leaves the section lines
untouched and reports no modification. -/
theorem processSubsections_all_empty (sec : List Line) (sug : MeetingSuggestions)
    (hr : sug.recap = "") (hd : sug.decisions = []) (ha : sug.actions = []) :
    processSubsections sec sug = (sec, false) := by
  rcases sug with ⟨r, d, a, ri, oq⟩
  simp only at hr hd ha
  subst hr; subst hd; subst ha
  rfl

/-- Claim C1, counterexample: on a document with no prior section for
the meeting, an all-empty `MeetingSuggestions` is *not* a no-op — the
insert path runs unconditionally, splices in a header-only section and
reports `changed == true`. -/
theorem upsert_empty_not_noop_cex :
    findSectionBounds (splitLinesK (normalizeContent ("# P Wiki\n\n").data))
      (sectionTemplate "2024-01-02".data "Standup".data "m1".data) = none ∧
    (upsert_meeting_section "# P Wiki\n\n" "2024-01-02" "Standup" "m1"
      ⟨"", [], [], [], []⟩).2 = true ∧
    (upsert_meeting_section "# P Wiki\n\n" "2024-01-02" "Standup" "m1"
      ⟨"", [], [], [], []⟩).1 ≠ "# P Wiki\n\n" := by
  decide

/-- Claim C1, amended: with an all-empty `MeetingSuggestions`,
`upsert_meeting_section` on a document with *no* prior section for the
meeting inserts a header-only section and reports `changed == true`;
only on a document that already has the section is it a no-op (document
unchanged, `changed == false`). -/
theorem upsert_all_empty_suggestions (doc date name mid : String)
    (sug : MeetingSuggestions) (hr : sug.recap = "") (hd : sug.decisions = [])
    (ha : sug.actions = []) :
    (findSectionBounds (splitLinesK (normalizeContent doc.data))
        (sectionTemplate date.data name.data mid.data) = none →
      (upsert_meeting_section doc date name mid sug).2 = true) ∧
    (∀ s e, findSectionBounds (splitLinesK (normalizeContent doc.data))
        (sectionTemplate date.data name.data mid.data) = some (s, e) →
      upsert_meeting_section doc date name mid sug = (doc, false)) := by
  constructor
  · intro h
    simp only [upsert_meeting_section, upsertLines, h]
    simp
  · intro s e h
    have hp := processSubsections_all_empty
      (((splitLinesK (normalizeContent doc.data)).drop s).take (e - s)) sug hr hd ha
    simp only [upsert_meeting_section, upsertLines, h, hp]
    simp

/-- Witness for `upsert_all_empty_suggestions`: on a document that
already has the section, an all-empty upsert is a no-op. -/
theorem upsert_all_empty_suggestions_witness :
    upsert_meeting_section "# P Wiki\n\n## [2024-01-02] Standup  <!-- id:m1 -->\n"
      "2024-01-02" "Standup" "m1" ⟨"", [], [], [], []⟩ =
    ("# P Wiki\n\n## [2024-01-02] Standup  <!-- id:m1 -->\n", false) :=
  (upsert_all_empty_suggestions
    "# P Wiki\n\n## [2024-01-02] Standup  <!-- id:m1 -->\n"
    "2024-01-02" "Standup" "m1" ⟨"", [], [], [], []⟩ rfl rfl rfl).2 2 3 (by decide)

/-! ## Claim C2 — renaming a meeting creates a second section -/

theorem mem_ite_cons {c : Prop} [Decidable c] (x : Line) (l : List Line)
    {a : Line} (h : a ∈ l) : a ∈ (if c then x :: l else l) := by
  split
  · exact List.mem_cons_of_mem _ h
  · exact h

/-- Every line of the original document survives the insert path (the
new section is spliced in; nothing is dropped). -/
theorem mem_insertNewSection_self {lines : List Line} {hdr : List Char}
    {sug : MeetingSuggestions} {l : Line} (h : l ∈ lines) :
    l ∈ insertNewSection lines hdr sug := by
  unfold insertNewSection
  have h2 : l ∈ lines.take (insertIdxOf lines) ++ lines.drop (insertIdxOf lines) := by
    rw [List.take_append_drop]
    exact h
  rcases List.mem_append.mp h2 with h3 | h3
  · exact List.mem_append.mpr (Or.inl (List.mem_append.mpr (Or.inl h3)))
  · exact List.mem_append.mpr (Or.inr h3)

/-- The generated header line is part of the freshly built section
block. -/
theorem headerLine_mem_buildSectionBlock (hdr : List Char)
    (sug : MeetingSuggestions) :
    (hdr ++ ['\n']) ∈ buildSectionBlock hdr sug := by
  dsimp only [buildSectionBlock]
  split
  · exact List.mem_cons_self _ _
  · exact List.mem_append.mpr (Or.inl (List.mem_cons_self _ _))

/-- The generated header line is present after the insert path runs. -/
theorem headerLine_mem_insertNewSection (lines : List Line) (hdr : List Char)
    (sug : MeetingSuggestions) :
    (hdr ++ ['\n']) ∈ insertNewSection lines hdr sug := by
  unfold insertNewSection
  refine List.mem_append.mpr (Or.inl (List.mem_append.mpr (Or.inr ?_)))
  exact mem_ite_cons _ _ (mem_ite_cons _ _ (headerLine_mem_buildSectionBlock hdr sug))

/-- Claim C2, counterexample: the document already contains the section
for `meeting_id` m1 (created under the name Alpha, found at line 2);
re-running the upsert with the same id and date but name Beta does not
find it — it creates a *second* section, leaving two `## [` header
lines carrying `id:m1`. -/
theorem upsert_rename_second_section_cex :
    findHeaderIdx
      (splitLinesK (normalizeContent
        ("# P Wiki\n\n## [2024-01-02] Alpha  <!-- id:m1 -->\n### To Do\n- x\n\n").data))
      (sectionTemplate "2024-01-02".data "Alpha".data "m1".data) = some 2 ∧
    (upsert_meeting_section
      "# P Wiki\n\n## [2024-01-02] Alpha  <!-- id:m1 -->\n### To Do\n- x\n\n"
      "2024-01-02" "Beta" "m1" ⟨"", [], ["x"], [], []⟩).2 = true ∧
    ((splitLinesK ((upsert_meeting_section
      "# P Wiki\n\n## [2024-01-02] Alpha  <!-- id:m1 -->\n### To Do\n- x\n\n"
      "2024-01-02" "Beta" "m1" ⟨"", [], ["x"], [], []⟩).1).data).countP
      (fun l => startsWithL "## [".data l && isSubstrL "id:m1".data l)) = 2 := by
  decide

/-- Claim C2, amended: keeping `meetingId` and `date` but changing
`meetingName` changes the generated header string, which is the
identity key; when that renamed header matches no line of the document,
the upsert takes the insert path: it reports a modification, inserts a
*second* section headed by the new header line, and leaves every line
of the old section (here represented by any line of the document) in
place. -/
theorem upsert_rename_creates_second_section
    (lines : List Line) (date newName mid : String) (sug : MeetingSuggestions)
    (oldLn : Line)
    (hnone : findSectionBounds lines
      (sectionTemplate date.data newName.data mid.data) = none)
    (hmem : oldLn ∈ lines) :
    (upsertLines lines (sectionTemplate date.data newName.data mid.data) sug).2
        = true ∧
    oldLn ∈ (upsertLines lines
      (sectionTemplate date.data newName.data mid.data) sug).1 ∧
    (sectionTemplate date.data newName.data mid.data ++ ['\n']) ∈
      (upsertLines lines (sectionTemplate date.data newName.data mid.data) sug).1 := by
  simp only [upsertLines, hnone]
  exact ⟨by simp, mem_insertNewSection_self hmem,
    headerLine_mem_insertNewSection _ _ _⟩

/-- Witness for `upsert_rename_creates_second_section` at a concrete
renamed upsert. -/
theorem upsert_rename_creates_second_section_witness :
    (upsertLines
      (splitLinesK ("# P Wiki\n\n## [2024-01-02] Alpha  <!-- id:m1 -->\n").data)
      (sectionTemplate "2024-01-02".data "Beta".data "m1".data)
      ⟨"", [], ["x"], [], []⟩).2 = true ∧
    ("## [2024-01-02] Alpha  <!-- id:m1 -->\n").data ∈
      (upsertLines
        (splitLinesK ("# P Wiki\n\n## [2024-01-02] Alpha  <!-- id:m1 -->\n").data)
        (sectionTemplate "2024-01-02".data "Beta".data "m1".data)
        ⟨"", [], ["x"], [], []⟩).1 ∧
    (sectionTemplate "2024-01-02".data "Beta".data "m1".data ++ ['\n']) ∈
      (upsertLines
        (splitLinesK ("# P Wiki\n\n## [2024-01-02] Alpha  <!-- id:m1 -->\n").data)
        (sectionTemplate "2024-01-02".data "Beta".data "m1".data)
        ⟨"", [], ["x"], [], []⟩).1 :=
  upsert_rename_creates_second_section _ "2024-01-02" "Beta" "m1" _ _
    (by decide) (by decide)

/-! ## Claim C8 — index update is a full replace -/

/-- Claim C8: calling `update_index_with_meeting` twice for the same
`meeting_id` with different entry contents leaves exactly one entry for
that id in the persisted index — the one built by the second call (full
replace, not merge) — and the invariant `total_meetings ==
len(meetings)` holds. -/
theorem update_index_replace_semantics
    (disk : Option MeetingIndex) (project mid now1 now2 : String)
    (e1 e2 : MeetingIndexEntry) (_h1 : e1.meeting_id = mid)
    (h2 : e2.meeting_id = mid) :
    ∃ idx2, update_index_with_meeting
        (update_index_with_meeting disk project mid now1 (.ok e1))
        project mid now2 (.ok e2) = some idx2 ∧
      idx2.meetings.filter (fun m => m.meeting_id == mid) = [e2] ∧
      idx2.total_meetings = idx2.meetings.length := by
  obtain ⟨idx1, hidx1⟩ : ∃ idx1,
      update_index_with_meeting disk project mid now1 (.ok e1) = some idx1 := by
    unfold update_index_with_meeting
    exact ⟨_, rfl⟩
  rw [hidx1]
  unfold update_index_with_meeting
  simp only [Option.getD_some]
  refine ⟨_, rfl, ?_, rfl⟩
  have hperm := (sortDescBy_perm (fun m : MeetingIndexEntry => m.timestamp)
      (idx1.meetings.filter (fun m => m.meeting_id != mid) ++ [e2])).filter
      (fun m => m.meeting_id == mid)
  have hbase : (idx1.meetings.filter (fun m => m.meeting_id != mid) ++
      [e2]).filter (fun m => m.meeting_id == mid) = [e2] := by
    rw [List.filter_append]
    have hnil : (idx1.meetings.filter (fun m => m.meeting_id != mid)).filter
        (fun m => m.meeting_id == mid) = [] := by
      rw [List.filter_eq_nil_iff]
      intro a ha
      have hne := (List.mem_filter.mp ha).2
      simp only [bne_iff_ne, ne_eq] at hne
      simp [hne]
    rw [hnil]
    simp [h2]
  rw [hbase] at hperm
  exact List.perm_singleton.mp hperm

/-- Witness for `update_index_replace_semantics`: two concrete updates
for meeting id m1 with different decision lists. -/
theorem update_index_replace_semantics_witness :
    ∃ idx2, update_index_with_meeting
        (update_index_with_meeting none "proj" "m1" "t1"
          (.ok ⟨"m1", 5, "2024-01-01", "Meeting A", none, "proj",
            ["old decision"], [], [], [], "", "j1", none, 2, []⟩))
        "proj" "m1" "t2"
        (.ok ⟨"m1", 5, "2024-01-01", "Meeting A", none, "proj",
          ["new decision"], [], [], [], "", "j1", none, 2, []⟩) = some idx2 ∧
      idx2.meetings.filter (fun m => m.meeting_id == "m1") =
        [⟨"m1", 5, "2024-01-01", "Meeting A", none, "proj",
          ["new decision"], [], [], [], "", "j1", none, 2, []⟩] ∧
      idx2.total_meetings = idx2.meetings.length :=
  update_index_replace_semantics none "proj" "m1" "t1" "t2" _ _ rfl rfl

/-! ## Claim C9 — search scoring and relevance ordering -/

theorem foldl_add_eq_sum {α : Type} (f : α → ℚ) (l : List α) (a : ℚ) :
    l.foldl (fun acc x => acc + f x) a = a + (l.map f).sum := by
  induction l generalizing a with
  | nil => simp
  | cons x xs ih => simp [ih, add_assoc]

theorem calc_eq_sum (m : MeetingIndexEntry) (ql : List Char)
    (qws : List (List Char)) :
    calculate_relevance_score m ql qws =
      ((searchFields m).map (fun fw => fieldScore fw.1 fw.2 ql qws)).sum := by
  unfold calculate_relevance_score
  rw [foldl_add_eq_sum]
  simp

theorem isSubstrL_nil_right {w : List Char} (h : w ≠ []) :
    isSubstrL w [] = false := by
  cases w with
  | nil => exact absurd rfl h
  | cons c cs => simp [isSubstrL, List.isPrefixOf]

theorem fieldScore_zero (field : List Char) (w : ℚ) (ql : List Char)
    (qws : List (List Char)) (hphrase : isSubstrL ql field = false)
    (hwords : ∀ x ∈ qws, isSubstrL x field = false) :
    fieldScore field w ql qws = 0 := by
  unfold fieldScore
  split
  · rfl
  · rw [hphrase]
    have hf : qws.filter (fun word => isSubstrL word field) = [] := by
      rw [List.filter_eq_nil_iff]
      intro x hx
      simp [hwords x hx]
    rw [hf]
    simp

theorem fieldScore_nonneg (field : List Char) (w : ℚ) (ql : List Char)
    (qws : List (List Char)) (hw : 0 ≤ w) : 0 ≤ fieldScore field w ql qws := by
  unfold fieldScore
  split
  · exact le_refl 0
  · apply add_nonneg
    · split
      · exact mul_nonneg hw (by norm_num)
      · exact le_refl 0
    · exact mul_nonneg (Nat.cast_nonneg _) hw

theorem fieldScore_phrase_ge (field : List Char) (w : ℚ) (ql : List Char)
    (qws : List (List Char)) (hw : 0 ≤ w) (hne : field ≠ [])
    (hsub : isSubstrL ql field = true) :
    w * 10 ≤ fieldScore field w ql qws := by
  unfold fieldScore
  rw [if_neg hne, hsub]
  simp only [if_pos rfl, if_true]
  exact le_add_of_nonneg_right (mul_nonneg (Nat.cast_nonneg _) hw)

/-- The per-field term of `_calculate_relevance_score` agrees with the
specification's formula whenever the query phrase and words are
non-empty (the `continue` on empty fields is then score-neutral). -/
theorem fieldScore_eq_spec_term (field : List Char) (w : ℚ) (ql : List Char)
    (qws : List (List Char)) (hql : ql ≠ []) (hw : ∀ x ∈ qws, x ≠ []) :
    fieldScore field w ql qws =
      (if isSubstrL ql field = true then 10 * w else 0) +
        ((qws.filter (fun word => isSubstrL word field)).length : ℚ) * w := by
  unfold fieldScore
  split
  · next hf =>
    subst hf
    rw [isSubstrL_nil_right hql]
    have h2 : qws.filter (fun word => isSubstrL word []) = [] := by
      rw [List.filter_eq_nil_iff]
      intro x hx
      simp [isSubstrL_nil_right (hw x hx)]
    rw [h2]
    simp
  · split
    · ring
    · ring

/-- `_calculate_relevance_score` computes exactly the specification's
weighted formula (for a non-empty query with non-empty words). -/
theorem calc_matches_spec (m : MeetingIndexEntry) (ql : List Char)
    (qws : List (List Char)) (hql : ql ≠ []) (hw : ∀ x ∈ qws, x ≠ []) :
    calculate_relevance_score m ql qws = specRelevanceScore m ql qws := by
  rw [calc_eq_sum]
  have he : ∀ (field : List Char) (w : ℚ), fieldScore field w ql qws =
      (if isSubstrL ql field = true then 10 * w else 0) +
        ((qws.filter (fun word => isSubstrL word field)).length : ℚ) * w :=
    fun field w => fieldScore_eq_spec_term field w ql qws hql hw
  unfold specRelevanceScore searchFields
  simp only [List.map_cons, List.map_nil, he]

/-- An entry where the phrase matches nowhere, no query word matches
any of the first six fields, and exactly one query word matches the
transcript, scores exactly 1. -/
theorem calc_score_one_word_transcript (B : MeetingIndexEntry) (ql : List Char)
    (qws : List (List Char))
    (hphrase : ∀ fw ∈ searchFields B, isSubstrL ql fw.1 = false)
    (hwords6 : ∀ fw ∈ (searchFields B).take 6, ∀ w ∈ qws, isSubstrL w fw.1 = false)
    (hws : ∀ w ∈ qws, w ≠ [])
    (hcount : (qws.filter
      (fun w => isSubstrL w (pyLower B.full_transcript.data))).length = 1) :
    calculate_relevance_score B ql qws = 1 := by
  have p1 := hphrase (pyLower B.meeting_name.data, 3) (by simp [searchFields])
  have p2 := hphrase (pyLower (String.intercalate " " B.decisions).data, 5/2)
    (by simp [searchFields])
  have p3 := hphrase (pyLower (String.intercalate " " B.action_items).data, 5/2)
    (by simp [searchFields])
  have p4 := hphrase (pyLower (String.intercalate " " B.risks).data, 2)
    (by simp [searchFields])
  have p5 := hphrase (pyLower (String.intercalate " " B.open_questions).data, 2)
    (by simp [searchFields])
  have p6 := hphrase (pyLower (String.intercalate " " B.keywords).data, 3/2)
    (by simp [searchFields])
  have p7 := hphrase (pyLower B.full_transcript.data, 1) (by simp [searchFields])
  have w1 := hwords6 (pyLower B.meeting_name.data, 3) (by simp [searchFields])
  have w2 := hwords6 (pyLower (String.intercalate " " B.decisions).data, 5/2)
    (by simp [searchFields])
  have w3 := hwords6 (pyLower (String.intercalate " " B.action_items).data, 5/2)
    (by simp [searchFields])
  have w4 := hwords6 (pyLower (String.intercalate " " B.risks).data, 2)
    (by simp [searchFields])
  have w5 := hwords6 (pyLower (String.intercalate " " B.open_questions).data, 2)
    (by simp [searchFields])
  have w6 := hwords6 (pyLower (String.intercalate " " B.keywords).data, 3/2)
    (by simp [searchFields])
  have htne : pyLower B.full_transcript.data ≠ [] := by
    intro hnil
    rw [hnil] at hcount
    have hz : qws.filter (fun w => isSubstrL w ([] : List Char)) = [] := by
      rw [List.filter_eq_nil_iff]
      intro x hx
      simp [isSubstrL_nil_right (hws x hx)]
    rw [hz] at hcount
    simp at hcount
  have h7 : fieldScore (pyLower B.full_transcript.data) 1 ql qws = 1 := by
    unfold fieldScore
    rw [if_neg htne, p7, hcount]
    norm_num
  rw [calc_eq_sum]
  simp only [searchFields, List.map_cons, List.map_nil, List.sum_cons,
    List.sum_nil]
  rw [fieldScore_zero _ _ _ _ p1 w1, fieldScore_zero _ _ _ _ p2 w2,
    fieldScore_zero _ _ _ _ p3 w3, fieldScore_zero _ _ _ _ p4 w4,
    fieldScore_zero _ _ _ _ p5 w5, fieldScore_zero _ _ _ _ p6 w6, h7]
  norm_num

/-- An entry whose lowercased meeting name contains the exact query
phrase scores at least 30 (= the name weight 3 times the phrase bonus
10). -/
theorem calc_score_phrase_in_name (A : MeetingIndexEntry) (ql : List Char)
    (qws : List (List Char)) (hql : ql ≠ [])
    (hsub : isSubstrL ql (pyLower A.meeting_name.data) = true) :
    30 ≤ calculate_relevance_score A ql qws := by
  have hne : pyLower A.meeting_name.data ≠ [] := by
    intro h
    rw [h, isSubstrL_nil_right hql] at hsub
    simp at hsub
  have h1 := fieldScore_phrase_ge (pyLower A.meeting_name.data) 3 ql qws
    (by norm_num) hne hsub
  have h2 := fieldScore_nonneg (pyLower (String.intercalate " " A.decisions).data)
    (5/2) ql qws (by norm_num)
  have h3 := fieldScore_nonneg (pyLower (String.intercalate " " A.action_items).data)
    (5/2) ql qws (by norm_num)
  have h4 := fieldScore_nonneg (pyLower (String.intercalate " " A.risks).data)
    2 ql qws (by norm_num)
  have h5 := fieldScore_nonneg (pyLower (String.intercalate " " A.open_questions).data)
    2 ql qws (by norm_num)
  have h6 := fieldScore_nonneg (pyLower (String.intercalate " " A.keywords).data)
    (3/2) ql qws (by norm_num)
  have h7 := fieldScore_nonneg (pyLower A.full_transcript.data) 1 ql qws
    (by norm_num)
  rw [calc_eq_sum]
  simp only [searchFields, List.map_cons, List.map_nil, List.sum_cons,
    List.sum_nil]
  linarith

/-- Positions in a descending-sorted, truncated, projected list respect
strict score ordering: an element whose every occurrence scores `sA`
appears whenever one scoring `sB < sA` does, and always strictly
earlier. -/
theorem take_map_fst_position (sorted : List (MeetingIndexEntry × ℚ)) (k : Nat)
    (A B : MeetingIndexEntry) (sA sB : ℚ)
    (hpw : sorted.Pairwise (fun a b => b.2 ≤ a.2))
    (hinvA : ∀ p ∈ sorted, p.1 = A → p.2 = sA)
    (hinvB : ∀ p ∈ sorted, p.1 = B → p.2 = sB)
    (hgt : sB < sA)
    (hAmem : (A, sA) ∈ sorted) :
    (B ∈ (sorted.take k).map Prod.fst → A ∈ (sorted.take k).map Prod.fst) ∧
    (∀ (i j : Nat), ((sorted.take k).map Prod.fst)[i]? = some A →
      ((sorted.take k).map Prod.fst)[j]? = some B → i < j) := by
  have hlen_lt : ∀ {n : Nat}, n < (sorted.take k).length → n < k ∧ n < sorted.length := by
    intro n hn
    rw [List.length_take] at hn
    exact ⟨lt_of_lt_of_le hn (min_le_left _ _), lt_of_lt_of_le hn (min_le_right _ _)⟩
  constructor
  · intro hBres
    rcases List.mem_iff_getElem?.mp hBres with ⟨j, hj⟩
    rw [List.getElem?_map] at hj
    rcases Option.map_eq_some'.mp hj with ⟨pB, hpB, hpB1⟩
    rcases List.getElem?_eq_some_iff.mp hpB with ⟨hjlen, hjB⟩
    obtain ⟨hjk, hjlen'⟩ := hlen_lt hjlen
    rw [List.getElem_take] at hjB
    have hBmem : pB ∈ sorted := by
      rw [← hjB]
      exact List.getElem_mem hjlen'
    have hB2 : pB.2 = sB := hinvB pB hBmem hpB1
    rcases List.getElem_of_mem hAmem with ⟨iA, hiAlen, hiAval⟩
    have hiAmax : iA < k := by
      by_contra hge
      push_neg at hge
      have hji : j < iA := lt_of_lt_of_le hjk hge
      have hr := (List.pairwise_iff_getElem.mp hpw) j iA hjlen' hiAlen hji
      rw [hiAval, hjB] at hr
      rw [hB2] at hr
      exact absurd hgt (not_lt.mpr hr)
    apply List.mem_iff_getElem?.mpr
    refine ⟨iA, ?_⟩
    rw [List.getElem?_map]
    have h1 : (sorted.take k)[iA]? = some (A, sA) := by
      rw [List.getElem?_take, if_pos hiAmax]
      exact List.getElem?_eq_some_iff.mpr ⟨hiAlen, hiAval⟩
    rw [h1]
    rfl
  · intro i j hi hj
    rw [List.getElem?_map] at hi hj
    rcases Option.map_eq_some'.mp hi with ⟨pA, hpA, hpA1⟩
    rcases Option.map_eq_some'.mp hj with ⟨pB, hpB, hpB1⟩
    rcases List.getElem?_eq_some_iff.mp hpA with ⟨hilen, hiA⟩
    rcases List.getElem?_eq_some_iff.mp hpB with ⟨hjlen, hjB⟩
    obtain ⟨hik, hilen'⟩ := hlen_lt hilen
    obtain ⟨hjk, hjlen'⟩ := hlen_lt hjlen
    rw [List.getElem_take] at hiA hjB
    have hAm : pA ∈ sorted := by
      rw [← hiA]
      exact List.getElem_mem hilen'
    have hBm : pB ∈ sorted := by
      rw [← hjB]
      exact List.getElem_mem hjlen'
    have hA2 : pA.2 = sA := hinvA pA hAm hpA1
    have hB2 : pB.2 = sB := hinvB pB hBm hpB1
    by_contra hcon
    rcases lt_or_eq_of_le (Nat.le_of_not_lt hcon) with hji | hji
    · have hr := (List.pairwise_iff_getElem.mp hpw) j i hjlen' hilen' hji
      rw [hiA, hjB, hA2, hB2] at hr
      exact absurd hgt (not_lt.mpr hr)
    · subst hji
      rw [hiA] at hjB
      have : sA = sB := by rw [← hA2, ← hB2, hjB]
      rw [this] at hgt
      exact lt_irrefl _ hgt

/-- Claim C9: `_calculate_relevance_score` computes exactly the
weighted formula of the specification (name ×3.0, decisions ×2.5,
actions ×2.5, risks ×2.0, open_questions ×2.0, keywords ×1.5,
transcript ×1.0; +10×weight for an exact phrase substring, +weight per
matching query word); consequently an entry `A` whose lowercased
meeting name contains the exact query phrase (score ≥ 30) scores
strictly above an entry `B` where only a single query word matches and
only inside the transcript (score 1), and `search_index` ranks `A`
strictly above `B`: whenever `B` appears in the result list, `A` does
too, and at a strictly smaller position. -/
theorem search_relevance_score_and_ordering
    (index : MeetingIndex) (query : String) (maxResults : Nat)
    (A B : MeetingIndexEntry)
    (hA : A ∈ index.meetings)
    (hname : isSubstrL (pyLower query.data) (pyLower A.meeting_name.data) = true)
    (hBphrase : ∀ fw ∈ searchFields B,
      isSubstrL (pyLower query.data) fw.1 = false)
    (hBwords : ∀ fw ∈ (searchFields B).take 6,
      ∀ w ∈ pySplitWs (pyLower query.data), isSubstrL w fw.1 = false)
    (hBcount : ((pySplitWs (pyLower query.data)).filter
        (fun w => isSubstrL w (pyLower B.full_transcript.data))).length = 1) :
    (∀ m : MeetingIndexEntry,
      calculate_relevance_score m (pyLower query.data)
          (pySplitWs (pyLower query.data)) =
        specRelevanceScore m (pyLower query.data)
          (pySplitWs (pyLower query.data))) ∧
    calculate_relevance_score B (pyLower query.data)
        (pySplitWs (pyLower query.data)) <
      calculate_relevance_score A (pyLower query.data)
        (pySplitWs (pyLower query.data)) ∧
    (B ∈ search_index index query maxResults →
      A ∈ search_index index query maxResults) ∧
    (∀ (i j : Nat), (search_index index query maxResults)[i]? = some A →
      (search_index index query maxResults)[j]? = some B → i < j) := by
  have hws := pySplitWs_ne_nil (pyLower query.data)
  have hql : pyLower query.data ≠ [] := by
    intro h
    have hx := hBphrase (pyLower B.meeting_name.data, 3) (by simp [searchFields])
    rw [h, isSubstrL_nil_left] at hx
    simp at hx
  have hBscore := calc_score_one_word_transcript B (pyLower query.data)
    (pySplitWs (pyLower query.data)) hBphrase hBwords hws hBcount
  have hAscore := calc_score_phrase_in_name A (pyLower query.data)
    (pySplitWs (pyLower query.data)) hql hname
  have hgt : calculate_relevance_score B (pyLower query.data)
      (pySplitWs (pyLower query.data)) <
      calculate_relevance_score A (pyLower query.data)
        (pySplitWs (pyLower query.data)) := by
    rw [hBscore]
    linarith
  have hApos : 0 < calculate_relevance_score A (pyLower query.data)
      (pySplitWs (pyLower query.data)) := by linarith
  refine ⟨fun m => calc_matches_spec m _ _ hql hws, hgt, ?_⟩
  have hres_inv : ∀ p ∈ index.meetings.filterMap (fun m =>
      let s := calculate_relevance_score m (pyLower query.data)
        (pySplitWs (pyLower query.data));
      if s > 0 then some (m, s) else none),
      p.2 = calculate_relevance_score p.1 (pyLower query.data)
        (pySplitWs (pyLower query.data)) ∧ p.1 ∈ index.meetings := by
    intro p hp
    rcases List.mem_filterMap.mp hp with ⟨m, hm, hf⟩
    dsimp only at hf
    by_cases hpos : calculate_relevance_score m (pyLower query.data)
        (pySplitWs (pyLower query.data)) > 0
    · rw [if_pos hpos] at hf
      cases hf
      exact ⟨rfl, hm⟩
    · rw [if_neg hpos] at hf
      cases hf
  have hsort_inv : ∀ p ∈ sortDescBy (fun r : MeetingIndexEntry × ℚ => r.2)
      (index.meetings.filterMap (fun m =>
        let s := calculate_relevance_score m (pyLower query.data)
          (pySplitWs (pyLower query.data));
        if s > 0 then some (m, s) else none)),
      p.2 = calculate_relevance_score p.1 (pyLower query.data)
        (pySplitWs (pyLower query.data)) ∧ p.1 ∈ index.meetings := by
    intro p hp
    exact hres_inv p ((sortDescBy_perm _ _).mem_iff.mp hp)
  have hmain := take_map_fst_position
    (sortDescBy (fun r : MeetingIndexEntry × ℚ => r.2)
      (index.meetings.filterMap (fun m =>
        let s := calculate_relevance_score m (pyLower query.data)
          (pySplitWs (pyLower query.data));
        if s > 0 then some (m, s) else none)))
    maxResults A B
    (calculate_relevance_score A (pyLower query.data)
      (pySplitWs (pyLower query.data)))
    (calculate_relevance_score B (pyLower query.data)
      (pySplitWs (pyLower query.data)))
    (sortDescBy_pairwise _ _)
    (fun p hp h1 => by rw [← h1]; exact (hsort_inv p hp).1)
    (fun p hp h1 => by rw [← h1]; exact (hsort_inv p hp).1)
    hgt
    ((sortDescBy_perm _ _).mem_iff.mpr (List.mem_filterMap.mpr
      ⟨A, hA, by dsimp only; rw [if_pos hApos]⟩))
  exact hmain

/-- Witness for `search_relevance_score_and_ordering`: the query
"database migration" matches entry m1's name as an exact phrase, while
entry m2 only contains the single word "migration" inside its
transcript; m1 scores strictly above m2. -/
theorem search_relevance_score_and_ordering_witness :
    calculate_relevance_score
      ⟨"m2", 5, "2024-01-02", "Standup notes", none, "p", [], [], [], [],
        "we discussed migration of data", "f2", none, 0, []⟩
      (pyLower ("database migration").data)
      (pySplitWs (pyLower ("database migration").data)) <
    calculate_relevance_score
      ⟨"m1", 10, "2024-01-01", "Database Migration Plan", none, "p",
        [], [], [], [], "", "f1", none, 0, []⟩
      (pyLower ("database migration").data)
      (pySplitWs (pyLower ("database migration").data)) :=
  (search_relevance_score_and_ordering
    ⟨"p", "c", "u", 2,
      [⟨"m1", 10, "2024-01-01", "Database Migration Plan", none, "p",
        [], [], [], [], "", "f1", none, 0, []⟩,
       ⟨"m2", 5, "2024-01-02", "Standup notes", none, "p", [], [], [], [],
        "we discussed migration of data", "f2", none, 0, []⟩]⟩
    "database migration" 50
    ⟨"m1", 10, "2024-01-01", "Database Migration Plan", none, "p",
      [], [], [], [], "", "f1", none, 0, []⟩
    ⟨"m2", 5, "2024-01-02", "Standup notes", none, "p", [], [], [], [],
      "we discussed migration of data", "f2", none, 0, []⟩
    (by decide) (by decide) (by decide) (by decide) (by decide)).2.1

/-! ## Claims C3 and C4 — deep lemmas about the section upsert engine -/

/-! ### The `idxFind` scan -/

theorem idxFind_eq_none_iff {p : Line → Bool} {l : List Line} :
    idxFind p l = none ↔ ∀ x ∈ l, p x = false := by
  induction l with
  | nil => simp [idxFind]
  | cons x xs ih =>
    by_cases h : p x
    · simp [idxFind, h]
    · simp [idxFind, h, ih]

theorem idxFind_append_of_none {p : Line → Bool} {xs : List Line}
    (ys : List Line) (h : idxFind p xs = none) :
    idxFind p (xs ++ ys) = (idxFind p ys).map (· + xs.length) := by
  induction xs with
  | nil => simp
  | cons x xs ih =>
    have hx : p x = false := by
      by_contra hc
      rw [Bool.not_eq_false] at hc
      simp [idxFind, hc] at h
    have hxs : idxFind p xs = none := by
      simp only [idxFind, hx, Bool.false_eq_true, if_false] at h
      exact Option.map_eq_none'.mp h
    have hcons : (x :: xs) ++ ys = x :: (xs ++ ys) := rfl
    rw [hcons]
    show (if p x then some 0 else (idxFind p (xs ++ ys)).map (· + 1)) =
      (idxFind p ys).map (· + (x :: xs).length)
    rw [if_neg (by simp [hx]), ih hxs]
    cases idxFind p ys with
    | none => rfl
    | some i =>
      simp only [Option.map_map, Option.map_some', Function.comp,
        List.length_cons]
      exact congrArg some (by omega)

theorem idxFind_append_left {p : Line → Bool} {xs : List Line} {i : Nat}
    (ys : List Line) (h : idxFind p xs = some i) :
    idxFind p (xs ++ ys) = some i := by
  induction xs generalizing i with
  | nil => simp [idxFind] at h
  | cons x xs ih =>
    by_cases hx : p x
    · simp only [idxFind, hx, if_true] at h
      simp [idxFind, hx, h]
    · simp only [idxFind, hx, Bool.false_eq_true, if_false] at h
      rcases Option.map_eq_some'.mp h with ⟨i', hi', hii⟩
      have hcons : (x :: xs) ++ ys = x :: (xs ++ ys) := rfl
      rw [hcons]
      show (if p x then some 0 else (idxFind p (xs ++ ys)).map (· + 1)) = some i
      rw [if_neg (by simp [hx]), ih hi', Option.map_some']
      rw [hii]

theorem idxFind_comp {p : Line → Bool} {pre : List Line} {x : Line}
    (post : List Line) (hpre : ∀ y ∈ pre, p y = false) (hx : p x = true) :
    idxFind p (pre ++ x :: post) = some pre.length := by
  induction pre with
  | nil => simp [idxFind, hx]
  | cons y pre ih =>
    have hy : p y = false := hpre y (List.mem_cons_self _ _)
    have := ih (fun z hz => hpre z (List.mem_cons_of_mem _ hz))
    simp [idxFind, hy, this]

theorem idxFind_decomp {p : Line → Bool} {l : List Line} {i : Nat}
    (h : idxFind p l = some i) :
    ∃ pre x post, l = pre ++ x :: post ∧ pre.length = i ∧
      (∀ y ∈ pre, p y = false) ∧ p x = true := by
  induction l generalizing i with
  | nil => simp [idxFind] at h
  | cons x xs ih =>
    by_cases hx : p x
    · simp only [idxFind, hx, if_true, Option.some_inj] at h
      exact ⟨[], x, xs, rfl, h, by simp, hx⟩
    · simp only [idxFind, hx, Bool.false_eq_true, if_false] at h
      rcases Option.map_eq_some'.mp h with ⟨i', hi', hii⟩
      rcases ih hi' with ⟨pre, y, post, hl, hlen, hpre, hy⟩
      refine ⟨x :: pre, y, post, by rw [hl]; rfl, by simp [hlen, ← hii], ?_, hy⟩
      intro z hz
      rcases List.mem_cons.mp hz with hz | hz
      · rw [hz]
        exact Bool.not_eq_true _ ▸ by simpa using hx
      · exact hpre z hz

/-! ### Stripping lemmas -/

theorem dropWhile_head?_false {α : Type} {p : α → Bool} {l : List α} {a : α}
    (h : (l.dropWhile p).head? = some a) : p a = false := by
  induction l with
  | nil => simp at h
  | cons x xs ih =>
    rw [List.dropWhile_cons] at h
    split at h
    · exact ih h
    · next hx =>
      simp only [List.head?_cons, Option.some_inj] at h
      subst h
      exact Bool.not_eq_true _ ▸ by simpa using hx

theorem dropWhile_idem {α : Type} (p : α → Bool) (l : List α) :
    (l.dropWhile p).dropWhile p = l.dropWhile p := by
  cases hd : l.dropWhile p with
  | nil => rfl
  | cons x xs =>
    have hx : p x = false := dropWhile_head?_false (by rw [hd]; rfl)
    rw [List.dropWhile_cons, hx]
    simp

theorem dropWhile_append_of_ne_nil {α : Type} {p : α → Bool} {l : List α}
    (ys : List α) (h : l.dropWhile p ≠ []) :
    (l ++ ys).dropWhile p = l.dropWhile p ++ ys := by
  rw [List.dropWhile_append]
  simp [List.isEmpty_iff, h]

theorem pyStripP_snoc {p : Char → Bool} {c : Char} (xs : List Char)
    (hpc : p c = true) : pyStripP p (xs ++ [c]) = pyStripP p xs := by
  unfold pyStripP
  by_cases hd : xs.dropWhile p = []
  · have h1 : (xs ++ [c]).dropWhile p = [] := by
      rw [List.dropWhile_append]
      simp [hd, List.dropWhile_cons, hpc]
    rw [h1, hd]
  · rw [dropWhile_append_of_ne_nil [c] hd, List.reverse_append]
    simp only [List.reverse_cons, List.reverse_nil, List.nil_append,
      List.singleton_append]
    rw [List.dropWhile_cons, hpc]
    simp

theorem pyStripP_fix {p : Char → Bool} {cs : List Char}
    (hh : ∀ a, cs.head? = some a → p a = false)
    (hl : ∀ a, cs.getLast? = some a → p a = false) :
    pyStripP p cs = cs := by
  unfold pyStripP
  have h1 : cs.dropWhile p = cs := by
    cases cs with
    | nil => rfl
    | cons x xs =>
      rw [List.dropWhile_cons, hh x rfl]
      simp
  rw [h1]
  have h2 : cs.reverse.dropWhile p = cs.reverse := by
    cases hcr : cs.reverse with
    | nil => rfl
    | cons y ys =>
      have hy : cs.getLast? = some y := by
        rw [← List.head?_reverse, hcr]
        rfl
      rw [List.dropWhile_cons, hl y hy]
      simp
  rw [h2, List.reverse_reverse]

theorem pyStripP_out_last {p : Char → Bool} {cs : List Char} {a : Char}
    (h : (pyStripP p cs).getLast? = some a) : p a = false := by
  unfold pyStripP at h
  rw [List.getLast?_reverse] at h
  exact dropWhile_head?_false h

theorem pyStripP_out_head {p : Char → Bool} {cs : List Char} {a : Char}
    (h : (pyStripP p cs).head? = some a) : p a = false := by
  unfold pyStripP at h
  rw [List.head?_reverse] at h
  set X := (cs.dropWhile p).reverse with hX
  have hr : X.dropWhile p ≠ [] := by
    intro hnil
    rw [hnil] at h
    simp at h
  rcases List.dropWhile_suffix (l := X) p with ⟨t, ht⟩
  have hlast : X.getLast? = some a := by
    rw [← ht, List.getLast?_append_of_ne_nil t hr, h]
  rw [hX, List.getLast?_reverse] at hlast
  exact dropWhile_head?_false hlast

theorem pyStripP_idem (p : Char → Bool) (cs : List Char) :
    pyStripP p (pyStripP p cs) = pyStripP p cs := by
  cases hs : pyStripP p cs with
  | nil => rfl
  | cons x xs =>
    apply pyStripP_fix
    · intro a ha
      rw [← hs] at ha
      exact pyStripP_out_head ha
    · intro a ha
      rw [← hs] at ha
      exact pyStripP_out_last ha

theorem pyStrip_idem (cs : List Char) : pyStrip (pyStrip cs) = pyStrip cs :=
  pyStripP_idem pyIsSpace cs

theorem mem_pyStripP {p : Char → Bool} {cs : List Char} {a : Char}
    (h : a ∈ pyStripP p cs) : a ∈ cs := by
  unfold pyStripP at h
  rw [List.mem_reverse] at h
  have h2 := (List.dropWhile_suffix p).sublist.subset h
  rw [List.mem_reverse] at h2
  exact (List.dropWhile_suffix p).sublist.subset h2

theorem pyStrip_snoc_nl (xs : List Char) :
    pyStrip (xs ++ ['\n']) = pyStrip xs :=
  pyStripP_snoc xs (by decide)

theorem pyStrip_bullet_line {n : List Char} (h : pyStrip n = n) (hne : n ≠ []) :
    pyStrip ('-' :: ' ' :: n) = '-' :: ' ' :: n := by
  apply pyStripP_fix
  · intro a ha
    simp only [List.head?_cons, Option.some_inj] at ha
    subst ha
    decide
  · intro a ha
    have hsplit : '-' :: ' ' :: n = ['-', ' '] ++ n := rfl
    rw [hsplit, List.getLast?_append_of_ne_nil _ hne] at ha
    rw [pyStrip] at h
    have h2 : (pyStripP pyIsSpace n).getLast? = some a := by
      rw [h]
      exact ha
    exact pyStripP_out_last h2

/-! ### Line shapes -/

theorem startsWith_false_of_head_ne {a b : Char} (r cs : List Char)
    (h : a ≠ b) : startsWithL (a :: r) (b :: cs) = false := by
  simp [startsWithL, List.isPrefixOf, h]

theorem startsWith_false_nil (a : Char) (r : List Char) :
    startsWithL (a :: r) [] = false := by
  simp [startsWithL, List.isPrefixOf]

theorem startsWith_trans_of_prefix {p q l : List Char} (hpq : p <+: q)
    (h : startsWithL q l = true) : startsWithL p l = true := by
  rw [startsWithL, List.isPrefixOf_iff_prefix] at h ⊢
  exact hpq.trans h

theorem subheader_startsWith_hashes (t : List Char) {l : List Char}
    (h : startsWithL ("### ".data ++ t) l = true) :
    startsWithL "### ".data l = true :=
  startsWith_trans_of_prefix (List.prefix_append _ _) h

/-- The generated `## [...]` section header never starts with `### `. -/
theorem template_not_sub_prefixed (t d n m : List Char) :
    startsWithL ("### ".data ++ t) (sectionTemplate d n m ++ ['\n']) = false := by
  have h1 : "### ".data ++ t = '#' :: '#' :: '#' :: ' ' :: t := rfl
  have h2 : sectionTemplate d n m ++ ['\n'] =
      '#' :: '#' :: ' ' :: '[' :: (d ++ "] ".data ++ n ++ "  <!-- id:".data ++
        m ++ " -->".data ++ ['\n']) := by
    simp [sectionTemplate]
  rw [h1, h2]
  simp [startsWithL, List.isPrefixOf]

/-- A section header line never starts with `"### "` (bare form). -/
theorem template_not_hash3 (d n m : List Char) :
    startsWithL "### ".data (sectionTemplate d n m ++ ['\n']) = false := by
  have h2 : sectionTemplate d n m ++ ['\n'] =
      '#' :: '#' :: ' ' :: '[' :: (d ++ "] ".data ++ n ++ "  <!-- id:".data ++
        m ++ " -->".data ++ ['\n']) := by
    simp [sectionTemplate]
  rw [h2]
  simp [startsWithL, List.isPrefixOf]

theorem pyStrip_template_ne_nil (d n m : List Char) :
    pyStrip (sectionTemplate d n m) ≠ [] := by
  intro hnil
  have hdw : (sectionTemplate d n m).dropWhile pyIsSpace =
      sectionTemplate d n m := by
    have : sectionTemplate d n m =
        '#' :: '#' :: ' ' :: '[' :: (d ++ "] ".data ++ n ++ "  <!-- id:".data ++
          m ++ " -->".data) := by
      simp [sectionTemplate]
    rw [this, List.dropWhile_cons]
    have hns : pyIsSpace '#' = false := by decide
    rw [hns]
    simp
  rw [pyStrip, pyStripP, hdw] at hnil
  have h2 : (sectionTemplate d n m).reverse.dropWhile pyIsSpace = [] := by
    have := congrArg List.reverse hnil
    simpa using this
  have h3 : ∀ x ∈ (sectionTemplate d n m).reverse, pyIsSpace x = true := by
    rw [← List.dropWhile_eq_nil_iff]
    exact h2
  have h4 : '#' ∈ (sectionTemplate d n m).reverse := by
    rw [List.mem_reverse]
    have : sectionTemplate d n m =
        '#' :: '#' :: ' ' :: '[' :: (d ++ "] ".data ++ n ++ "  <!-- id:".data ++
          m ++ " -->".data) := by
      simp [sectionTemplate]
    rw [this]
    exact List.mem_cons_self _ _
  exact absurd (h3 '#' h4) (by decide)

/-- Parse-back: a freshly written bullet line contributes exactly its
text to the existing-bullet set. -/
theorem bulletText_of_bullet {n : List Char} (h : pyStrip n = n)
    (hne : n ≠ []) :
    bulletText ('-' :: ' ' :: (n ++ ['\n'])) = some n := by
  unfold bulletText
  have hassoc : '-' :: ' ' :: (n ++ ['\n']) = ('-' :: ' ' :: n) ++ ['\n'] := rfl
  rw [hassoc, pyStrip_snoc_nl, pyStrip_bullet_line h hne]
  have hpre : startsWithL "- ".data ('-' :: ' ' :: n) = true := by
    simp [startsWithL, List.isPrefixOf]
  dsimp only
  rw [hpre]
  simp [h]

theorem existingBulletSet_append (a b : List Line) :
    existingBulletSet (a ++ b) = existingBulletSet a ++ existingBulletSet b :=
  List.filterMap_append a b bulletText

theorem mem_existingBulletSet_of_bullet {lns : List Line} {n : List Char}
    (hmem : ('-' :: ' ' :: (n ++ ['\n'])) ∈ lns) (h : pyStrip n = n)
    (hne : n ≠ []) : n ∈ existingBulletSet lns :=
  List.mem_filterMap.mpr ⟨_, hmem, bulletText_of_bullet h hne⟩

/-! ### `_merge_bullets` -/

/-- The merge loop only appends, and every appended line is a freshly
formatted bullet. -/
theorem mergeBulletsGo_shape (merged : List Line) (set : List (List Char))
    (items : List (List Char)) :
    ∃ suffix, mergeBulletsGo merged set items = merged ++ suffix ∧
      ∀ l ∈ suffix, ∃ nn, l = '-' :: ' ' :: (nn ++ ['\n']) ∧
        pyStrip nn = nn ∧ nn ≠ [] := by
  induction items generalizing merged set with
  | nil => exact ⟨[], by simp [mergeBulletsGo], by simp⟩
  | cons i rest ih =>
    by_cases hc : pyStrip i ≠ [] ∧ pyStrip i ∉ set
    · rcases ih (merged ++ ["- ".data ++ pyStrip i ++ ['\n']])
        (set ++ [pyStrip i]) with ⟨suffix, hs, hshape⟩
      refine ⟨("- ".data ++ pyStrip i ++ ['\n']) :: suffix, ?_, ?_⟩
      · rw [mergeBulletsGo, if_pos hc, hs]
        simp
      · intro l hl
        rcases List.mem_cons.mp hl with hl | hl
        · exact ⟨pyStrip i, by rw [hl]; rfl, pyStrip_idem i, hc.1⟩
        · exact hshape l hl
    · rcases ih merged set with ⟨suffix, hs, hshape⟩
      exact ⟨suffix, by rw [mergeBulletsGo, if_neg hc]; exact hs, hshape⟩

/-- Every candidate item's trimmed text ends up present (or was blank)
after the merge, provided the running set under-approximates the
bullets of the accumulated lines. -/
theorem mergeBulletsGo_items_in (merged : List Line) (set : List (List Char))
    (items : List (List Char))
    (hsub : ∀ x ∈ set, x ∈ existingBulletSet merged) :
    ∀ i ∈ items, pyStrip i = [] ∨
      pyStrip i ∈ existingBulletSet (mergeBulletsGo merged set items) := by
  induction items generalizing merged set with
  | nil => simp
  | cons i rest ih =>
    intro j hj
    have hmono : ∀ (m : List Line) (s : List (List Char)) (x : List Char),
        x ∈ existingBulletSet m →
        x ∈ existingBulletSet (mergeBulletsGo m s rest) := by
      intro m s x hx
      rcases mergeBulletsGo_shape m s rest with ⟨suffix, hs, _⟩
      rw [hs, existingBulletSet_append]
      exact List.mem_append.mpr (Or.inl hx)
    by_cases hc : pyStrip i ≠ [] ∧ pyStrip i ∉ set
    · rw [mergeBulletsGo, if_pos hc]
      have hbmem : pyStrip i ∈
          existingBulletSet (merged ++ ["- ".data ++ pyStrip i ++ ['\n']]) := by
        rw [existingBulletSet_append]
        refine List.mem_append.mpr (Or.inr ?_)
        have : ("- ".data ++ pyStrip i ++ ['\n']) =
            '-' :: ' ' :: (pyStrip i ++ ['\n']) := rfl
        rw [this]
        exact mem_existingBulletSet_of_bullet (List.mem_cons_self _ _)
          (pyStrip_idem i) hc.1
      rcases List.mem_cons.mp hj with hj | hj
      · subst hj
        exact Or.inr (hmono _ _ _ hbmem)
      · refine ih _ _ ?_ j hj
        intro x hx
        rcases List.mem_append.mp hx with hx | hx
        · rw [existingBulletSet_append]
          exact List.mem_append.mpr (Or.inl (hsub x hx))
        · simp only [List.mem_singleton] at hx
          subst hx
          exact hbmem
    · rw [mergeBulletsGo, if_neg hc]
      rcases List.mem_cons.mp hj with hj | hj
      · subst hj
        rcases Decidable.not_and_iff_or_not.mp hc with h | h
        · exact Or.inl (not_not.mp h)
        · exact Or.inr (hmono _ _ _ (hsub _ (not_not.mp h)))
      · exact ih merged set hsub j hj

/-- If the merge changed nothing, every item was blank or already in
the running set. -/
theorem mergeBulletsGo_eq_self (merged : List Line) (set : List (List Char))
    (items : List (List Char))
    (h : mergeBulletsGo merged set items = merged) :
    ∀ i ∈ items, pyStrip i = [] ∨ pyStrip i ∈ set := by
  induction items generalizing merged set with
  | nil => simp
  | cons i rest ih =>
    intro j hj
    by_cases hc : pyStrip i ≠ [] ∧ pyStrip i ∉ set
    · exfalso
      rw [mergeBulletsGo, if_pos hc] at h
      rcases mergeBulletsGo_shape (merged ++ ["- ".data ++ pyStrip i ++ ['\n']])
        (set ++ [pyStrip i]) rest with ⟨suffix, hs, _⟩
      rw [hs] at h
      have := congrArg List.length h
      simp at this
    · rw [mergeBulletsGo, if_neg hc] at h
      rcases List.mem_cons.mp hj with hj | hj
      · subst hj
        rcases Decidable.not_and_iff_or_not.mp hc with h1 | h1
        · exact Or.inl (not_not.mp h1)
        · exact Or.inr (not_not.mp h1)
      · exact ih merged set h j hj

/-- A merge with only blank or already-present items is a no-op. -/
theorem mergeBulletsGo_noop (merged : List Line) (set : List (List Char))
    (items : List (List Char))
    (h : ∀ i ∈ items, pyStrip i = [] ∨ pyStrip i ∈ set) :
    mergeBulletsGo merged set items = merged := by
  induction items generalizing merged set with
  | nil => rfl
  | cons i rest ih =>
    have hi := h i (List.mem_cons_self _ _)
    have hc : ¬(pyStrip i ≠ [] ∧ pyStrip i ∉ set) := by
      rcases hi with hi | hi
      · intro hcon
        exact hcon.1 hi
      · intro hcon
        exact hcon.2 hi
    rw [mergeBulletsGo, if_neg hc]
    exact ih merged set (fun j hj => h j (List.mem_cons_of_mem _ hj))

theorem mergeBullets_noop (bullets : List Line) (items : List (List Char))
    (h : ∀ i ∈ items, pyStrip i = [] ∨ pyStrip i ∈ existingBulletSet bullets) :
    mergeBullets bullets items = bullets :=
  mergeBulletsGo_noop bullets (existingBulletSet bullets) items h

/-! ### Locating subsections and sections -/

theorem subFind_eq (sec : List Line) (t : List Char) :
    subFind sec t =
      match idxFind (fun ln => startsWithL ("### ".data ++ t) ln) sec with
      | none => none
      | some i =>
        match idxFind pEnd (sec.drop (i + 1)) with
        | some k => some (i, i + 1 + k)
        | none => some (i, sec.length) := rfl

theorem drop_decomp_head (pre : List Line) (h : Line) (post : List Line) :
    (pre ++ h :: post).drop (pre.length + 1) = post := by
  have h1 : pre ++ h :: post = (pre ++ [h]) ++ post := by simp
  have h2 : pre.length + 1 = (pre ++ [h]).length := by simp
  rw [h1, h2, List.drop_left]

theorem drop_decomp (pre : List Line) (h : Line) (post : List Line) :
    (pre ++ h :: post).drop pre.length = h :: post :=
  List.drop_left pre (h :: post)

/-- Build `subFind` from a decomposition of the section: the subsection
slice starts with `mid` (and possibly continues into `rest`). -/
theorem subFind_of_decomp {sec : List Line} {t : List Char} {pre : List Line}
    {hl : Line} {mid rest : List Line}
    (hsec : sec = pre ++ hl :: (mid ++ rest))
    (hpre : ∀ l ∈ pre, startsWithL ("### ".data ++ t) l = false)
    (hh : startsWithL ("### ".data ++ t) hl = true)
    (hmid : ∀ l ∈ mid, pEnd l = false) :
    ∃ se tail, subFind sec t = some (pre.length, se) ∧
      (sec.drop (pre.length + 1)).take (se - (pre.length + 1)) = mid ++ tail := by
  subst hsec
  have hdrop : (pre ++ hl :: (mid ++ rest)).drop (pre.length + 1) = mid ++ rest :=
    drop_decomp_head pre hl (mid ++ rest)
  have hmidnone : idxFind pEnd mid = none := idxFind_eq_none_iff.mpr hmid
  rw [subFind_eq, idxFind_comp (mid ++ rest) hpre hh]
  dsimp only
  rw [hdrop, idxFind_append_of_none rest hmidnone]
  cases hk : idxFind pEnd rest with
  | some k =>
    simp only [Option.map_some']
    refine ⟨pre.length + 1 + (k + mid.length), rest.take k, rfl, ?_⟩
    have harith : pre.length + 1 + (k + mid.length) - (pre.length + 1) =
        mid.length + k := by omega
    rw [harith, List.take_add, List.take_left, List.drop_left]
  | none =>
    simp only [Option.map_none']
    refine ⟨(pre ++ hl :: (mid ++ rest)).length, rest, rfl, ?_⟩
    have hlen : (pre ++ hl :: (mid ++ rest)).length =
        pre.length + 1 + (mid.length + rest.length) := by
      simp
      omega
    rw [hlen]
    have harith : pre.length + 1 + (mid.length + rest.length) -
        (pre.length + 1) = (mid ++ rest).length := by
      simp
    rw [harith, List.take_length]

/-- `SubSat` from a decomposition whose `mid` already carries every
item's trimmed text. -/
theorem SubSat_of_decomp {sec : List Line} {t : List Char} {pre : List Line}
    {hl : Line} {mid rest : List Line} {items : List (List Char)}
    (hsec : sec = pre ++ hl :: (mid ++ rest))
    (hpre : ∀ l ∈ pre, startsWithL ("### ".data ++ t) l = false)
    (hh : startsWithL ("### ".data ++ t) hl = true)
    (hmid : ∀ l ∈ mid, pEnd l = false)
    (hitems : ∀ i ∈ items, pyStrip i = [] ∨
      pyStrip i ∈ existingBulletSet mid) :
    SubSat sec t items := by
  rcases subFind_of_decomp hsec hpre hh hmid with ⟨se, tail, hfind, hslice⟩
  refine ⟨pre.length, se, hfind, ?_⟩
  intro i hi
  rcases hitems i hi with h | h
  · exact Or.inl h
  · right
    rw [hslice, existingBulletSet_append]
    exact List.mem_append.mpr (Or.inl h)

/-- Inverse: a successful `subFind` decomposes the section. -/
theorem subFind_decomp {sec : List Line} {t : List Char} {ss se : Nat}
    (h : subFind sec t = some (ss, se)) :
    ∃ pre hl mid rest, sec = pre ++ hl :: (mid ++ rest) ∧ pre.length = ss ∧
      (∀ l ∈ pre, startsWithL ("### ".data ++ t) l = false) ∧
      startsWithL ("### ".data ++ t) hl = true ∧
      (∀ l ∈ mid, pEnd l = false) ∧
      se = ss + 1 + mid.length ∧
      (rest = [] ∧ se = sec.length ∨ ∃ r0 rs, rest = r0 :: rs ∧ pEnd r0 = true) ∧
      (sec.drop (ss + 1)).take (se - (ss + 1)) = mid := by
  rw [subFind_eq] at h
  cases hfind : idxFind (fun ln => startsWithL ("### ".data ++ t) ln) sec with
  | none => rw [hfind] at h; cases h
  | some i =>
    rw [hfind] at h
    dsimp only at h
    rcases idxFind_decomp hfind with ⟨pre, hl, post, hsec, hlen, hpre, hh⟩
    have hdrop : sec.drop (i + 1) = post := by
      rw [hsec, ← hlen]
      exact drop_decomp_head pre hl post
    rw [hdrop] at h
    cases hk : idxFind pEnd post with
    | some k =>
      rw [hk] at h
      dsimp only at h
      simp only [Option.some_inj, Prod.mk.injEq] at h
      rcases idxFind_decomp hk with ⟨mid, r0, rs, hpost, hmlen, hmid, hr0⟩
      refine ⟨pre, hl, mid, r0 :: rs, by rw [hsec, hpost], by rw [hlen, h.1],
        hpre, hh, hmid, by omega, Or.inr ⟨r0, rs, rfl, hr0⟩, ?_⟩
      have e1 : ss + 1 = i + 1 := by omega
      have e2 : se - (i + 1) = mid.length := by omega
      rw [e1, hdrop, hpost, e2, List.take_left]
    | none =>
      rw [hk] at h
      dsimp only at h
      simp only [Option.some_inj, Prod.mk.injEq] at h
      have hlensec : sec.length = pre.length + 1 + post.length := by
        rw [hsec]
        simp
        omega
      refine ⟨pre, hl, post, [], by rw [hsec]; simp, by rw [hlen, h.1],
        hpre, hh, idxFind_eq_none_iff.mp hk, by omega,
        Or.inl ⟨rfl, h.2.symm⟩, ?_⟩
      have e1 : ss + 1 = i + 1 := by omega
      have e2 : se - (i + 1) = post.length := by omega
      rw [e1, hdrop, e2, List.take_length]

/-- Build `findSectionBounds` from a decomposition of the document: the
section slice is the header line followed by `mid` (and possibly part
of `rest`). -/
theorem findSectionBounds_of_decomp {lines : List Line} {hdr : List Char}
    {pre : List Line} {hl : Line} {mid rest : List Line}
    (hlines : lines = pre ++ hl :: (mid ++ rest))
    (hpre : ∀ l ∈ pre, (pyStrip l == pyStrip hdr) = false)
    (hh : pyStrip hl = pyStrip hdr)
    (hmid : ∀ l ∈ mid, startsWithL "## ".data l = false) :
    ∃ e tail, findSectionBounds lines hdr = some (pre.length, e) ∧
      (lines.drop pre.length).take (e - pre.length) = hl :: (mid ++ tail) := by
  subst hlines
  have hdrop1 : (pre ++ hl :: (mid ++ rest)).drop (pre.length + 1) = mid ++ rest :=
    drop_decomp_head pre hl (mid ++ rest)
  have hdrop0 : (pre ++ hl :: (mid ++ rest)).drop pre.length =
      hl :: (mid ++ rest) := drop_decomp pre hl (mid ++ rest)
  unfold findSectionBounds findHeaderIdx
  rw [idxFind_comp (mid ++ rest) hpre (beq_iff_eq.mpr hh)]
  dsimp only
  unfold sectionEndIdx
  rw [hdrop1, idxFind_append_of_none rest (idxFind_eq_none_iff.mpr hmid)]
  cases hk : idxFind (fun ln => startsWithL "## ".data ln) rest with
  | some k =>
    simp only [Option.map_some']
    refine ⟨pre.length + 1 + (k + mid.length), rest.take k, rfl, ?_⟩
    rw [hdrop0]
    have harith : pre.length + 1 + (k + mid.length) - pre.length =
        (mid.length + k) + 1 := by omega
    rw [harith, List.take_succ_cons, List.take_add, List.take_left,
      List.drop_left]
  | none =>
    simp only [Option.map_none']
    refine ⟨(pre ++ hl :: (mid ++ rest)).length, rest, rfl, ?_⟩
    rw [hdrop0]
    have hlen : (pre ++ hl :: (mid ++ rest)).length =
        pre.length + ((mid ++ rest).length + 1) := by
      simp
    rw [hlen]
    have harith : pre.length + ((mid ++ rest).length + 1) - pre.length =
        (mid ++ rest).length + 1 := by omega
    rw [harith, List.take_succ_cons, List.take_length]

/-- Inverse: successful `_find_section_bounds` decomposes the document;
the slice is the header line plus the `##`-free run after it. -/
theorem findSectionBounds_decomp {lines : List Line} {hdr : List Char}
    {s e : Nat} (h : findSectionBounds lines hdr = some (s, e)) :
    ∃ pre hl mid rest, lines = pre ++ hl :: (mid ++ rest) ∧ pre.length = s ∧
      (∀ l ∈ pre, (pyStrip l == pyStrip hdr) = false) ∧
      pyStrip hl = pyStrip hdr ∧
      (∀ l ∈ mid, startsWithL "## ".data l = false) ∧
      e = s + 1 + mid.length ∧
      (rest = [] ∧ e = lines.length ∨
        ∃ r0 rs, rest = r0 :: rs ∧ startsWithL "## ".data r0 = true) ∧
      (lines.drop s).take (e - s) = hl :: mid := by
  unfold findSectionBounds findHeaderIdx at h
  cases hfind : idxFind (fun ln => pyStrip ln == pyStrip hdr) lines with
  | none => rw [hfind] at h; cases h
  | some i =>
    rw [hfind] at h
    dsimp only at h
    rcases idxFind_decomp hfind with ⟨pre, hl, post, hlines, hlen, hpre, hh⟩
    have hdrop1 : lines.drop (i + 1) = post := by
      rw [hlines, ← hlen]
      exact drop_decomp_head pre hl post
    have hdrop0 : lines.drop i = hl :: post := by
      rw [hlines, ← hlen]
      exact drop_decomp pre hl post
    unfold sectionEndIdx at h
    rw [hdrop1] at h
    cases hk : idxFind (fun ln => startsWithL "## ".data ln) post with
    | some k =>
      rw [hk] at h
      dsimp only at h
      simp only [Option.some_inj, Prod.mk.injEq] at h
      rcases idxFind_decomp hk with ⟨mid, r0, rs, hpost, hmlen, hmid, hr0⟩
      refine ⟨pre, hl, mid, r0 :: rs, by rw [hlines, hpost], by rw [hlen, h.1],
        hpre, beq_iff_eq.mp hh, hmid, by omega,
        Or.inr ⟨r0, rs, rfl, hr0⟩, ?_⟩
      have e0 : s = i := h.1.symm
      have e2 : e - i = mid.length + 1 := by omega
      rw [e0, hdrop0, e2, List.take_succ_cons, hpost, List.take_left]
    | none =>
      rw [hk] at h
      dsimp only at h
      simp only [Option.some_inj, Prod.mk.injEq] at h
      have hlensec : lines.length = pre.length + 1 + post.length := by
        rw [hlines]
        simp
        omega
      refine ⟨pre, hl, post, [], by rw [hlines]; simp, by rw [hlen, h.1],
        hpre, beq_iff_eq.mp hh, idxFind_eq_none_iff.mp hk, by omega,
        Or.inl ⟨rfl, h.2.symm⟩, ?_⟩
      have e0 : s = i := h.1.symm
      have e2 : e - i = post.length + 1 := by omega
      rw [e0, hdrop0, e2, List.take_succ_cons, List.take_length]

/-! ### The update loop on a saturated section is a no-op -/

theorem stepSubsection_noop {sec : List Line} {mod : Bool} {t : List Char}
    {items : List (List Char)} (hsat : items = [] ∨ SubSat sec t items) :
    stepSubsection (sec, mod) (t, items) = (sec, mod) := by
  unfold stepSubsection
  dsimp only
  by_cases hnil : items = []
  · rw [if_pos hnil]
  · rcases hsat with h | ⟨ss, se, hfind, hnorm⟩
    · exact absurd h hnil
    · rw [if_neg hnil, hfind]
      dsimp only
      rw [mergeBullets_noop _ items hnorm]
      simp

theorem foldl_stepSubsection_noop (P : List (List Char × List (List Char)))
    (sec : List Line) (mod : Bool)
    (hsat : ∀ ti ∈ P, ti.2 = [] ∨ SubSat sec ti.1 ti.2) :
    P.foldl stepSubsection (sec, mod) = (sec, mod) := by
  induction P with
  | nil => rfl
  | cons a P ih =>
    rw [List.foldl_cons]
    have hstep : stepSubsection (sec, mod) a = (sec, mod) := by
      rcases a with ⟨t, items⟩
      exact stepSubsection_noop (hsat (t, items) (List.mem_cons_self _ _))
    rw [hstep]
    exact ih (fun ti hti => hsat ti (List.mem_cons_of_mem _ hti))

theorem processSubsections_noop {sec : List Line} {sug : MeetingSuggestions}
    (hsat : ∀ ti ∈ subsectionPlan sug, ti.2 = [] ∨ SubSat sec ti.1 ti.2) :
    processSubsections sec sug = (sec, false) :=
  foldl_stepSubsection_noop _ sec false hsat

theorem upsertLines_noop {lines : List Line} {hdr : List Char}
    {sug : MeetingSuggestions} {s e : Nat}
    (hfind : findSectionBounds lines hdr = some (s, e))
    (hsat : ∀ ti ∈ subsectionPlan sug,
      ti.2 = [] ∨ SubSat ((lines.drop s).take (e - s)) ti.1 ti.2) :
    upsertLines lines hdr sug = (lines, false) := by
  unfold upsertLines
  rw [hfind]
  dsimp only
  rw [processSubsections_noop hsat]
  simp

/-! ### Splitting and joining newline-terminated lines -/

theorem splitLinesK_cons_nl (cs : List Char) :
    splitLinesK ('\n' :: cs) = ['\n'] :: splitLinesK cs := by
  cases cs with
  | nil => rfl
  | cons c2 rest =>
    rw [splitLinesK]
    rw [if_pos (by decide)]
    rw [if_neg (fun h => absurd h.1 (by decide))]

theorem splitLinesK_cons_nonbreak {c : Char} {cs : List Char}
    (hc : isLineBreak c = false) (hcs : cs ≠ []) :
    splitLinesK (c :: cs) =
      match splitLinesK cs with
      | [] => [[c]]
      | l :: ls => (c :: l) :: ls := by
  cases cs with
  | nil => exact absurd rfl hcs
  | cons c2 rest =>
    rw [splitLinesK]
    rw [if_neg (by simp [hc])]

theorem splitLinesK_ne_nil {cs : List Char} (h : cs ≠ []) :
    splitLinesK cs ≠ [] := by
  cases cs with
  | nil => exact absurd rfl h
  | cons c rest =>
    cases rest with
    | nil => simp [splitLinesK]
    | cons c2 rest2 =>
      rw [splitLinesK]
      by_cases hbr : isLineBreak c = true
      · rw [if_pos hbr]
        split <;> simp
      · rw [if_neg hbr]
        cases splitLinesK (c2 :: rest2) with
        | nil => simp
        | cons l ls => simp

theorem splitLinesK_cons_line {b : List Char} (rest : List Char)
    (hb : noBrk b) :
    splitLinesK ((b ++ ['\n']) ++ rest) = (b ++ ['\n']) :: splitLinesK rest := by
  induction b with
  | nil =>
    simp only [List.nil_append, List.singleton_append]
    exact splitLinesK_cons_nl rest
  | cons c b ih =>
    have hc : isLineBreak c = false := hb c (List.mem_cons_self _ _)
    have hb' : noBrk b := fun x hx => hb x (List.mem_cons_of_mem _ hx)
    have hstep : ((c :: b) ++ ['\n']) ++ rest = c :: ((b ++ ['\n']) ++ rest) := by
      simp
    rw [hstep, splitLinesK_cons_nonbreak hc (by simp), ih hb']
    simp

theorem splitLinesK_joinL {L : List Line} (h : ∀ l ∈ L, NlLine l) :
    splitLinesK (joinL L) = L := by
  induction L with
  | nil => rfl
  | cons l L ih =>
    rcases h l (List.mem_cons_self _ _) with ⟨b, hb, hnb⟩
    have hjoin : joinL (l :: L) = (b ++ ['\n']) ++ joinL L := by
      rw [joinL, List.foldr_cons, hb]
      rfl
    rw [hjoin, splitLinesK_cons_line (joinL L) hnb, ← hb,
      ih (fun x hx => h x (List.mem_cons_of_mem _ hx))]

theorem splitLinesK_proper {cs : List Char} (honly : onlyNl cs)
    (h : endsWithChar '\n' cs = true) :
    ∀ l ∈ splitLinesK cs, NlLine l := by
  induction cs with
  | nil => simp [splitLinesK]
  | cons c rest ih =>
    intro l hl
    by_cases hr : rest = []
    · subst hr
      have hc : c = '\n' := by
        simp only [endsWithChar, List.getLast?_singleton, Option.some_inj,
          decide_eq_true_eq] at h
        exact h
      subst hc
      simp only [splitLinesK, List.mem_singleton] at hl
      subst hl
      exact ⟨[], rfl, by simp [noBrk]⟩
    · have hrest : endsWithChar '\n' rest = true := by
        have hsplit : c :: rest = [c] ++ rest := rfl
        rw [endsWithChar] at h ⊢
        rw [hsplit, List.getLast?_append_of_ne_nil _ hr] at h
        exact h
      have honlyr : onlyNl rest := fun x hx => honly x (List.mem_cons_of_mem _ hx)
      have ihr := ih honlyr hrest
      by_cases hbr : isLineBreak c = true
      · have hc : c = '\n' := honly c (List.mem_cons_self _ _) hbr
        subst hc
        rw [splitLinesK_cons_nl] at hl
        rcases List.mem_cons.mp hl with rfl | hl
        · exact ⟨[], rfl, by simp [noBrk]⟩
        · exact ihr l hl
      · rw [Bool.not_eq_true] at hbr
        rw [splitLinesK_cons_nonbreak hbr hr] at hl
        cases hsp : splitLinesK rest with
        | nil => exact absurd hsp (splitLinesK_ne_nil hr)
        | cons l0 ls =>
          rw [hsp] at hl
          dsimp only at hl
          rcases List.mem_cons.mp hl with rfl | hl
          · rcases ihr l0 (hsp ▸ List.mem_cons_self _ _) with ⟨b0, hb0, hnb0⟩
            refine ⟨c :: b0, by rw [hb0]; rfl, ?_⟩
            intro x hx
            rcases List.mem_cons.mp hx with rfl | hx
            · exact hbr
            · exact hnb0 x hx
          · exact ihr l (hsp ▸ List.mem_cons_of_mem _ hl)

theorem joinL_ne_nil {L : List Line} (hne : L ≠ [])
    (h : ∀ l ∈ L, NlLine l) : joinL L ≠ [] := by
  cases L with
  | nil => exact absurd rfl hne
  | cons l L =>
    rcases h l (List.mem_cons_self _ _) with ⟨b, hb, _⟩
    rw [joinL, List.foldr_cons, hb]
    simp

theorem joinL_ends_nl {L : List Line} (hne : L ≠ [])
    (h : ∀ l ∈ L, NlLine l) : endsWithChar '\n' (joinL L) = true := by
  induction L with
  | nil => exact absurd rfl hne
  | cons l L ih =>
    by_cases hL : L = []
    · subst hL
      rcases h l (List.mem_cons_self _ _) with ⟨b, hb, _⟩
      rw [joinL, List.foldr_cons, hb]
      simp only [endsWithChar]
      rw [List.foldr_nil, List.append_nil, List.getLast?_concat]
      simp
    · have hrec := ih hL (fun x hx => h x (List.mem_cons_of_mem _ hx))
      have hjoin : joinL (l :: L) = l ++ joinL L := rfl
      rw [hjoin, endsWithChar,
        List.getLast?_append_of_ne_nil _
          (joinL_ne_nil hL (fun x hx => h x (List.mem_cons_of_mem _ hx)))]
      exact hrec

theorem normalizeContent_of_ends {cs : List Char}
    (h : endsWithChar '\n' cs = true) : normalizeContent cs = cs := by
  unfold normalizeContent
  rw [h]
  simp

/-! ### Positional list helpers -/

theorem take_decomp (pre : List Line) (h : Line) (post : List Line) :
    (pre ++ h :: post).take (pre.length + 1) = pre ++ [h] := by
  have h1 : pre ++ h :: post = (pre ++ [h]) ++ post := by simp
  rw [h1]
  exact List.take_left' (by simp)

theorem take_decomp2 (pre : List Line) (h : Line) (mid rest : List Line) :
    (pre ++ h :: (mid ++ rest)).take (pre.length + 1 + mid.length) =
      pre ++ h :: mid := by
  have h1 : pre ++ h :: (mid ++ rest) = (pre ++ h :: mid) ++ rest := by simp
  rw [h1]
  exact List.take_left' (by simp; omega)

theorem drop_decomp2 (pre : List Line) (h : Line) (mid rest : List Line) :
    (pre ++ h :: (mid ++ rest)).drop (pre.length + 1 + mid.length) = rest := by
  have h1 : pre ++ h :: (mid ++ rest) = (pre ++ h :: mid) ++ rest := by simp
  rw [h1]
  exact List.drop_left' (by simp; omega)

theorem take_append_le {α : Type} {n : Nat} (A B : List α) (h : n ≤ A.length) :
    (A ++ B).take n = A.take n := by
  rw [List.take_append_eq_append_take, Nat.sub_eq_zero_of_le h]
  simp

theorem drop_append_le {α : Type} {n : Nat} (A B : List α) (h : n ≤ A.length) :
    (A ++ B).drop n = A.drop n ++ B := by
  rw [List.drop_append_eq_append_drop, Nat.sub_eq_zero_of_le h]
  simp

theorem take_middle_drop {α : Type} (l : List α) {s e : Nat} (hse : s ≤ e) :
    l.take s ++ ((l.drop s).take (e - s) ++ l.drop e) = l := by
  have h1 : (l.drop s).drop (e - s) = l.drop e := by
    rw [List.drop_drop]
    congr 1
    omega
  calc l.take s ++ ((l.drop s).take (e - s) ++ l.drop e)
      = l.take s ++ ((l.drop s).take (e - s) ++ (l.drop s).drop (e - s)) := by
        rw [h1]
    _ = l.take s ++ l.drop s := by rw [List.take_append_drop]
    _ = l := List.take_append_drop s l

theorem getElem?_decomp_head (A : List Line) (x : Line) (B : List Line) :
    (A ++ x :: B)[A.length]? = some x := by
  rw [List.getElem?_append_right (Nat.le_refl _)]
  simp

theorem getElem?_middle_mem {A : List Line} {x : Line} {m r : List Line}
    {i : Nat} (h1 : A.length + 1 ≤ i) (h2 : i < A.length + 1 + m.length) :
    ∃ l ∈ m, (A ++ x :: (m ++ r))[i]? = some l := by
  have hjm : i - (A.length + 1) < m.length := by omega
  refine ⟨m[i - (A.length + 1)], List.getElem_mem _, ?_⟩
  have hi : i = (A.length + 1) + (i - (A.length + 1)) := by omega
  conv_lhs => rw [hi]
  rw [← List.getElem?_drop, drop_decomp_head, List.getElem?_append_left hjm,
    List.getElem?_eq_getElem hjm]

theorem getLast?_mem' {α : Type} {l : List α} {a : α}
    (h : l.getLast? = some a) : a ∈ l := by
  induction l with
  | nil => cases h
  | cons x xs ih =>
    cases xs with
    | nil =>
      rw [List.getLast?_singleton] at h
      rw [Option.some_inj] at h
      rw [← h]
      exact List.mem_singleton_self x
    | cons y ys =>
      rw [List.getLast?_cons_cons] at h
      exact List.mem_cons_of_mem _ (ih h)

theorem normalizeContent_proper {cs : List Char} (honly : onlyNl cs) :
    ∀ l ∈ splitLinesK (normalizeContent cs), NlLine l := by
  by_cases hnil : cs = []
  · subst hnil
    simp [normalizeContent, splitLinesK]
  · by_cases hends : endsWithChar '\n' cs = true
    · rw [normalizeContent_of_ends hends]
      exact splitLinesK_proper honly hends
    · have h2 : normalizeContent cs = cs ++ ['\n'] := by
        unfold normalizeContent
        rw [if_pos]
        exact ⟨hnil, by simp [hends]⟩
      rw [h2]
      apply splitLinesK_proper
      · intro c hc hbr
        rcases List.mem_append.mp hc with hc | hc
        · exact honly c hc hbr
        · exact List.mem_singleton.mp hc
      · rw [endsWithChar, List.getLast?_concat]
        simp

/-! ### More line-shape facts -/

theorem startsWithL_self_append (p q : List Char) :
    startsWithL p (p ++ q) = true := by
  rw [startsWithL, List.isPrefixOf_iff_prefix]
  exact List.prefix_append p q

theorem startsWith_both {p1 p2 l : List Char} (h1 : startsWithL p1 l = true)
    (h2 : startsWithL p2 l = true) :
    startsWithL p1 p2 = true ∨ startsWithL p2 p1 = true := by
  simp only [startsWithL, List.isPrefixOf_iff_prefix] at h1 h2 ⊢
  exact List.prefix_or_prefix_of_prefix h1 h2

theorem startsWith_incompat {p1 p2 l : List Char}
    (h12 : startsWithL p1 p2 = false) (h21 : startsWithL p2 p1 = false)
    (h1 : startsWithL p1 l = true) (h2 : startsWithL p2 l = true) : False := by
  rcases startsWith_both h1 h2 with h | h
  · rw [h12] at h
    exact absurd h (by simp)
  · rw [h21] at h
    exact absurd h (by simp)

theorem pEnd_of_sub {t : List Char} {l : Line}
    (h : startsWithL ("### ".data ++ t) l = true) : pEnd l = true := by
  unfold pEnd
  rw [subheader_startsWith_hashes t h, Bool.true_or]

theorem pEnd_of_head_ne {c : Char} (cs : List Char) (h : c ≠ '#') :
    pEnd (c :: cs) = false := by
  have h4 : ("### ".data : List Char) = '#' :: "## ".data := rfl
  have h3 : ("## ".data : List Char) = '#' :: "# ".data := rfl
  unfold pEnd
  rw [h4, h3, startsWith_false_of_head_ne _ _ (fun hc => h hc.symm),
    startsWith_false_of_head_ne _ _ (fun hc => h hc.symm)]
  rfl

theorem sub_prefix_head_ne {t : List Char} {c : Char} (cs : List Char)
    (h : c ≠ '#') : startsWithL ("### ".data ++ t) (c :: cs) = false := by
  have h4 : "### ".data ++ t = '#' :: ("## ".data ++ t) := rfl
  rw [h4]
  exact startsWith_false_of_head_ne _ _ (fun hc => h hc.symm)

theorem hash2_head_ne {c : Char} (cs : List Char) (h : c ≠ '#') :
    startsWithL "## ".data (c :: cs) = false := by
  have h3 : ("## ".data : List Char) = '#' :: "# ".data := rfl
  rw [h3]
  exact startsWith_false_of_head_ne _ _ (fun hc => h hc.symm)

theorem hash2_false_of_hash3 (xs : List Char) :
    startsWithL "## ".data ('#' :: '#' :: '#' :: xs) = false := by
  have h2 : ("## ".data : List Char) = '#' :: '#' :: ' ' :: [] := rfl
  rw [startsWithL, h2]
  by_contra hc
  rw [Bool.not_eq_false, List.isPrefixOf_iff_prefix] at hc
  rw [List.cons_prefix_cons, List.cons_prefix_cons, List.cons_prefix_cons] at hc
  exact absurd hc.2.2.1 (by decide)

theorem endsWith_concat (b : List Char) :
    endsWithChar '\n' (b ++ ['\n']) = true := by
  rw [endsWithChar, List.getLast?_concat]
  decide

/-! ### Bullet-line membership -/

theorem mem_bulletsOf {l : Line} {items : List (List Char)}
    (h : l ∈ bulletsOf items) :
    ∃ i ∈ items, l = '-' :: ' ' :: (pyStrip i ++ ['\n']) ∧ pyStrip i ≠ [] := by
  unfold bulletsOf at h
  rw [List.mem_filterMap] at h
  rcases h with ⟨i, hi, hf⟩
  by_cases hc : pyStrip i ≠ []
  · rw [if_pos hc] at hf
    exact ⟨i, hi, (Option.some_inj.mp hf).symm, hc⟩
  · rw [if_neg hc] at hf
    cases hf

theorem strip_mem_bulletsOf {i : List Char} {items : List (List Char)}
    (hi : i ∈ items) (hne : pyStrip i ≠ []) :
    pyStrip i ∈ existingBulletSet (bulletsOf items) := by
  apply mem_existingBulletSet_of_bullet _ (pyStrip_idem i) hne
  unfold bulletsOf
  rw [List.mem_filterMap]
  exact ⟨i, hi, by rw [if_pos hne]; rfl⟩

/-- The merge loop's appended lines, with their source items. -/
theorem mergeBulletsGo_src (merged : List Line) (set : List (List Char))
    (items : List (List Char)) :
    ∃ F, mergeBulletsGo merged set items = merged ++ F ∧
      ∀ l ∈ F, ∃ i ∈ items, l = '-' :: ' ' :: (pyStrip i ++ ['\n']) ∧
        pyStrip i ∉ set ∧ pyStrip i ≠ [] := by
  induction items generalizing merged set with
  | nil => exact ⟨[], by simp [mergeBulletsGo], by simp⟩
  | cons i rest ih =>
    by_cases hc : pyStrip i ≠ [] ∧ pyStrip i ∉ set
    · rcases ih (merged ++ ["- ".data ++ pyStrip i ++ ['\n']])
        (set ++ [pyStrip i]) with ⟨F, hF, hprop⟩
      refine ⟨("- ".data ++ pyStrip i ++ ['\n']) :: F, ?_, ?_⟩
      · rw [mergeBulletsGo, if_pos hc, hF]
        simp
      · intro l hl
        rcases List.mem_cons.mp hl with rfl | hl
        · exact ⟨i, List.mem_cons_self _ _, rfl, hc.2, hc.1⟩
        · rcases hprop l hl with ⟨j, hj, hshape, hnot, hne⟩
          exact ⟨j, List.mem_cons_of_mem _ hj, hshape,
            fun hmem => hnot (List.mem_append_left _ hmem), hne⟩
    · rcases ih merged set with ⟨F, hF, hprop⟩
      refine ⟨F, ?_, ?_⟩
      · rw [mergeBulletsGo, if_neg hc, hF]
      · intro l hl
        rcases hprop l hl with ⟨j, hj, hshape, hnot, hne⟩
        exact ⟨j, List.mem_cons_of_mem _ hj, hshape, hnot, hne⟩

/-! ### Find failures as universal statements -/

theorem subFind_none {sec : List Line} {t : List Char}
    (h : subFind sec t = none) :
    ∀ l ∈ sec, startsWithL ("### ".data ++ t) l = false := by
  intro l hl
  rw [subFind_eq] at h
  cases hfind : idxFind (fun ln => startsWithL ("### ".data ++ t) ln) sec with
  | none => exact idxFind_eq_none_iff.mp hfind l hl
  | some i =>
    exfalso
    rw [hfind] at h
    dsimp only at h
    cases hk : idxFind pEnd (sec.drop (i + 1)) <;> rw [hk] at h <;>
      dsimp only at h <;> cases h

theorem findSectionBounds_none {lines : List Line} {hdr : List Char}
    (h : findSectionBounds lines hdr = none) :
    ∀ l ∈ lines, (pyStrip l == pyStrip hdr) = false := by
  intro l hl
  unfold findSectionBounds findHeaderIdx at h
  cases hfind : idxFind (fun ln => pyStrip ln == pyStrip hdr) lines with
  | none => exact idxFind_eq_none_iff.mp hfind l hl
  | some i =>
    exfalso
    rw [hfind] at h
    cases h

/-! ### Saturation is stable under growing the section -/

theorem SubSat_append {sec : List Line} {t : List Char}
    {items : List (List Char)} (h : SubSat sec t items) (Y : List Line) :
    SubSat (sec ++ Y) t items := by
  rcases h with ⟨ss, se, hfind, hmem⟩
  rcases subFind_decomp hfind with
    ⟨pre, hl, mid, rest, hsec, hlen, hpre, hh, hmid, hse, _, hslice⟩
  rw [hslice] at hmem
  apply SubSat_of_decomp
    (show sec ++ Y = pre ++ hl :: (mid ++ (rest ++ Y)) by rw [hsec]; simp)
    hpre hh hmid hmem

/-- Two distinct subsections of the same section occupy disjoint line
ranges: their `### ` headers cannot match each other's scans, and no
header line sits strictly inside the other's bullet range. -/
theorem subFind_disjoint {sec : List Line} {t t' : List Char}
    {ss se ss' se' : Nat}
    (h : subFind sec t = some (ss, se)) (h' : subFind sec t' = some (ss', se'))
    (h12 : startsWithL ("### ".data ++ t) ("### ".data ++ t') = false)
    (h21 : startsWithL ("### ".data ++ t') ("### ".data ++ t) = false) :
    se ≤ ss' ∨ se' ≤ ss := by
  rcases subFind_decomp h with ⟨P, SH, M, R, hsec, hlen, _, hSH, hM, hse, _, _⟩
  rcases subFind_decomp h' with
    ⟨Q, HL, N, S, hsec', hlen', _, hHL, hN, hse', _, _⟩
  have hgSH : sec[ss]? = some SH := by
    rw [hsec, ← hlen]
    exact getElem?_decomp_head P SH (M ++ R)
  have hgHL : sec[ss']? = some HL := by
    rw [hsec', ← hlen']
    exact getElem?_decomp_head Q HL (N ++ S)
  have hne : ss ≠ ss' := by
    intro he
    rw [he, hgHL] at hgSH
    rw [Option.some_inj] at hgSH
    rw [← hgSH] at hSH
    exact startsWith_incompat h12 h21 hSH hHL
  rcases Nat.lt_or_ge ss ss' with hlt | hge
  · -- `t` comes first: its range must end before `ss'`
    left
    by_contra hc
    rw [Nat.not_le] at hc
    have hmidmem : ∃ l ∈ M, sec[ss']? = some l := by
      rw [hsec]
      exact getElem?_middle_mem (by omega) (by omega)
    rcases hmidmem with ⟨l, hlM, hgl⟩
    rw [hgHL, Option.some_inj] at hgl
    have hp1 : pEnd l = false := hM l hlM
    rw [← hgl] at hp1
    rw [pEnd_of_sub hHL] at hp1
    cases hp1
  · -- `t'` comes first
    right
    have hlt' : ss' < ss := Nat.lt_of_le_of_ne hge (Ne.symm hne)
    by_contra hc
    rw [Nat.not_le] at hc
    have hmidmem : ∃ l ∈ N, sec[ss]? = some l := by
      rw [hsec']
      exact getElem?_middle_mem (by omega) (by omega)
    rcases hmidmem with ⟨l, hlN, hgl⟩
    rw [hgSH, Option.some_inj] at hgl
    have hp1 : pEnd l = false := hN l hlN
    rw [← hgl] at hp1
    rw [pEnd_of_sub hSH] at hp1
    cases hp1

/-- Splicing new lines into a section at a point outside a saturated
subsection's range keeps that subsection saturated, provided none of
the new lines can be mistaken for its header. -/
theorem SubSat_insert {sec : List Line} {t' : List Char}
    {its : List (List Char)} {q : Nat} {F : List Line}
    (hsat : SubSat sec t' its)
    (hF : ∀ l ∈ F, startsWithL ("### ".data ++ t') l = false)
    (hq : ∀ ss se, subFind sec t' = some (ss, se) → q ≤ ss ∨ se ≤ q) :
    SubSat (sec.take q ++ F ++ sec.drop q) t' its := by
  rcases hsat with ⟨ss, se, hfind, hmem⟩
  rcases subFind_decomp hfind with
    ⟨P, HL, M, R, hsec, hlen, hP, hHL, hM, hse, _, hslice⟩
  rw [hslice] at hmem
  rcases hq ss se hfind with hle | hge
  · have hqP : q ≤ P.length := by omega
    have htake : sec.take q = P.take q := by
      rw [hsec, take_append_le _ _ hqP]
    have hdrop : sec.drop q = P.drop q ++ HL :: (M ++ R) := by
      rw [hsec, drop_append_le _ _ hqP]
    apply SubSat_of_decomp
      (show sec.take q ++ F ++ sec.drop q =
        (P.take q ++ F ++ P.drop q) ++ HL :: (M ++ R) by
          rw [htake, hdrop]; simp)
      ?_ hHL hM hmem
    intro l hl
    rcases List.mem_append.mp hl with hl | hl
    · rcases List.mem_append.mp hl with hl | hl
      · exact hP l (List.take_subset q P hl)
      · exact hF l hl
    · exact hP l (List.drop_subset q P hl)
  · have htakese : sec.take se = P ++ HL :: M := by
      rw [hsec, hse, ← hlen]
      exact take_decomp2 P HL M R
    have hdropse : sec.drop se = R := by
      rw [hsec, hse, ← hlen]
      exact drop_decomp2 P HL M R
    have htake : sec.take q = (P ++ HL :: M) ++ R.take (q - se) := by
      have hq2 : q = se + (q - se) := by omega
      conv_lhs => rw [hq2]
      rw [List.take_add, htakese, hdropse]
    have hdrop : sec.drop q = R.drop (q - se) := by
      have hq2 : q = se + (q - se) := by omega
      conv_lhs => rw [hq2]
      rw [← List.drop_drop, hdropse]
    apply SubSat_of_decomp
      (show sec.take q ++ F ++ sec.drop q =
        P ++ HL :: (M ++ (R.take (q - se) ++ F ++ R.drop (q - se))) by
          rw [htake, hdrop]; simp)
      hP hHL hM hmem

/-! ### One loop iteration saturates its own subsection and preserves
the others -/

theorem SubSat_insert_block {sec1 : List Line} {t : List Char}
    {items : List (List Char)}
    (hsec1 : ∀ l ∈ sec1, startsWithL ("### ".data ++ t) l = false) :
    SubSat (sec1 ++ ("### ".data ++ t ++ ['\n']) :: (bulletsOf items ++ [['\n']]))
      t items := by
  apply SubSat_of_decomp
    (show sec1 ++ ("### ".data ++ t ++ ['\n']) :: (bulletsOf items ++ [['\n']]) =
      sec1 ++ ("### ".data ++ t ++ ['\n']) ::
        ((bulletsOf items ++ [['\n']]) ++ []) by simp)
    hsec1 ?_ ?_ ?_
  · exact startsWithL_self_append ("### ".data ++ t) ['\n']
  · intro l hl
    rcases List.mem_append.mp hl with hl | hl
    · rcases mem_bulletsOf hl with ⟨i, _, hshape, _⟩
      rw [hshape]
      exact pEnd_of_head_ne _ (by decide)
    · rw [List.mem_singleton.mp hl]
      exact pEnd_of_head_ne _ (by decide)
  · intro i hi
    by_cases hs : pyStrip i = []
    · exact Or.inl hs
    · right
      rw [existingBulletSet_append]
      exact List.mem_append_left _ (strip_mem_bulletsOf hi hs)

theorem stepSubsection_self_sat (sec : List Line) (mod : Bool) (t : List Char)
    {items : List (List Char)} (hne : items ≠ []) :
    SubSat (stepSubsection (sec, mod) (t, items)).1 t items := by
  unfold stepSubsection
  dsimp only
  rw [if_neg hne]
  cases hfind : subFind sec t with
  | none =>
    dsimp only
    have hsafe := subFind_none hfind
    cases hlast : sec.getLast? with
    | none =>
      dsimp only
      exact SubSat_insert_block hsafe
    | some l =>
      dsimp only
      by_cases hnl : endsWithChar '\n' l = true
      · rw [if_pos hnl]
        exact SubSat_insert_block hsafe
      · rw [if_neg hnl]
        apply SubSat_insert_block
        intro l' hl'
        rcases List.mem_append.mp hl' with hl' | hl'
        · exact hsafe l' hl'
        · rw [List.mem_singleton.mp hl']
          exact sub_prefix_head_ne _ (by decide)
  | some p =>
    rcases p with ⟨ss, se⟩
    dsimp only
    rcases subFind_decomp hfind with
      ⟨P, HL, M, R, hsec, hlen, hP, hHL, hM, hse, _, hslice⟩
    rw [hslice]
    rcases mergeBulletsGo_src M (existingBulletSet M) items with ⟨F, hF, hprop⟩
    have hmg : mergeBullets M items = M ++ F := hF
    by_cases hch : mergeBullets M items ≠ M
    · rw [if_pos hch]
      have htk : sec.take (ss + 1) = P ++ [HL] := by
        rw [hsec, ← hlen]
        exact take_decomp P HL (M ++ R)
      have hdp : sec.drop se = R := by
        rw [hsec, hse, ← hlen]
        exact drop_decomp2 P HL M R
      rw [htk, hdp, hmg]
      apply SubSat_of_decomp
        (show (P ++ [HL]) ++ (M ++ F) ++ R = P ++ HL :: ((M ++ F) ++ R) by simp)
        hP hHL ?_ ?_
      · intro l hl
        rcases List.mem_append.mp hl with hl | hl
        · exact hM l hl
        · rcases hprop l hl with ⟨i, _, hshape, _, _⟩
          rw [hshape]
          exact pEnd_of_head_ne _ (by decide)
      · intro i hi
        rcases mergeBulletsGo_items_in M (existingBulletSet M) items
          (fun x hx => hx) i hi with h0 | h0
        · exact Or.inl h0
        · right
          rw [show mergeBulletsGo M (existingBulletSet M) items = M ++ F from hF]
            at h0
          exact h0
    · rw [if_neg hch]
      have heq : mergeBullets M items = M := not_not.mp hch
      refine ⟨ss, se, hfind, ?_⟩
      intro i hi
      rw [hslice]
      exact mergeBulletsGo_eq_self M (existingBulletSet M) items heq i hi

theorem stepSubsection_pres (mod : Bool) (items : List (List Char))
    {sec : List Line} {t t' : List Char} {its' : List (List Char)}
    (hsat : SubSat sec t' its')
    (h12 : startsWithL ("### ".data ++ t) ("### ".data ++ t') = false)
    (h21 : startsWithL ("### ".data ++ t') ("### ".data ++ t) = false) :
    SubSat (stepSubsection (sec, mod) (t, items)).1 t' its' := by
  unfold stepSubsection
  dsimp only
  by_cases hne : items = []
  · rw [if_pos hne]
    exact hsat
  rw [if_neg hne]
  cases hfind : subFind sec t with
  | none =>
    dsimp only
    cases hlast : sec.getLast? with
    | none =>
      dsimp only
      exact SubSat_append hsat _
    | some l =>
      dsimp only
      by_cases hnl : endsWithChar '\n' l = true
      · rw [if_pos hnl]
        exact SubSat_append hsat _
      · rw [if_neg hnl]
        rw [List.append_assoc]
        exact SubSat_append hsat _
  | some p =>
    rcases p with ⟨ss, se⟩
    dsimp only
    rcases subFind_decomp hfind with
      ⟨P, HL, M, R, hsec, hlen, hP, hHL, hM, hse, _, hslice⟩
    rw [hslice]
    rcases mergeBulletsGo_src M (existingBulletSet M) items with ⟨F, hF, hprop⟩
    have hmg : mergeBullets M items = M ++ F := hF
    by_cases hch : mergeBullets M items ≠ M
    · rw [if_pos hch]
      have htkse : sec.take se = P ++ HL :: M := by
        rw [hsec, hse, ← hlen]
        exact take_decomp2 P HL M R
      have htk : sec.take (ss + 1) = P ++ [HL] := by
        rw [hsec, ← hlen]
        exact take_decomp P HL (M ++ R)
      have hshape : sec.take (ss + 1) ++ mergeBullets M items ++ sec.drop se =
          sec.take se ++ F ++ sec.drop se := by
        rw [htk, htkse, hmg]
        simp
      rw [hshape]
      apply SubSat_insert hsat ?_ ?_
      · intro l hl
        rcases hprop l hl with ⟨i, _, hshape2, _, _⟩
        rw [hshape2]
        exact sub_prefix_head_ne _ (by decide)
      · intro ss0 se0 hfind0
        rcases subFind_disjoint hfind hfind0 h12 h21 with hd | hd
        · exact Or.inl hd
        · right
          omega
    · rw [if_neg hch]
      exact hsat

theorem foldl_stepSubsection_pres
    (P : List (List Char × List (List Char))) (sec : List Line) (mod : Bool)
    {t' : List Char} {its' : List (List Char)}
    (hsat : SubSat sec t' its')
    (hind : ∀ b ∈ P,
      startsWithL ("### ".data ++ b.1) ("### ".data ++ t') = false ∧
      startsWithL ("### ".data ++ t') ("### ".data ++ b.1) = false) :
    SubSat (P.foldl stepSubsection (sec, mod)).1 t' its' := by
  revert hind hsat
  induction P generalizing sec mod with
  | nil =>
    intro hsat _
    exact hsat
  | cons a P ih =>
    intro hsat hind
    rw [List.foldl_cons]
    rcases a with ⟨t, items⟩
    have hstep : SubSat (stepSubsection (sec, mod) (t, items)).1 t' its' :=
      stepSubsection_pres mod items hsat
        (hind (t, items) (List.mem_cons_self _ _)).1
        (hind (t, items) (List.mem_cons_self _ _)).2
    cases hres : stepSubsection (sec, mod) (t, items) with
    | mk sec2 mod2 =>
      rw [hres] at hstep
      exact ih sec2 mod2 hstep (fun b hb => hind b (List.mem_cons_of_mem _ hb))

theorem foldl_stepSubsection_sat
    (P : List (List Char × List (List Char))) (sec : List Line) (mod : Bool)
    (hpair : List.Pairwise (fun a b =>
      startsWithL ("### ".data ++ a.1) ("### ".data ++ b.1) = false ∧
      startsWithL ("### ".data ++ b.1) ("### ".data ++ a.1) = false) P) :
    ∀ ti ∈ P, ti.2 = [] ∨ SubSat (P.foldl stepSubsection (sec, mod)).1 ti.1 ti.2 := by
  revert hpair
  induction P generalizing sec mod with
  | nil =>
    intro _ ti hti
    cases hti
  | cons a P ih =>
    intro hpair ti hti
    rw [List.foldl_cons]
    rw [List.pairwise_cons] at hpair
    rcases a with ⟨t, items⟩
    cases hres : stepSubsection (sec, mod) (t, items) with
    | mk sec2 mod2 =>
      rcases List.mem_cons.mp hti with rfl | hti'
      · by_cases hne : items = []
        · exact Or.inl hne
        · right
          have hstep : SubSat sec2 t items := by
            have h0 := stepSubsection_self_sat sec mod t hne
            rw [hres] at h0
            exact h0
          exact foldl_stepSubsection_pres P sec2 mod2 hstep
            (fun b hb => ⟨(hpair.1 b hb).2, (hpair.1 b hb).1⟩)
      · exact ih sec2 mod2 hpair.2 ti hti'

/-- The three configured subsection titles are mutually incompatible
as `### ` header prefixes. -/
theorem subsectionPlan_pairwise (sug : MeetingSuggestions) :
    List.Pairwise (fun a b =>
      startsWithL ("### ".data ++ a.1) ("### ".data ++ b.1) = false ∧
      startsWithL ("### ".data ++ b.1) ("### ".data ++ a.1) = false)
      (subsectionPlan sug) := by
  unfold subsectionPlan
  refine List.Pairwise.cons ?_ (List.Pairwise.cons ?_
    (List.Pairwise.cons ?_ List.Pairwise.nil))
  · intro b hb
    rcases List.mem_cons.mp hb with rfl | hb
    · exact ⟨by dsimp only; decide, by dsimp only; decide⟩
    · rcases List.mem_cons.mp hb with rfl | hb
      · exact ⟨by dsimp only; decide, by dsimp only; decide⟩
      · cases hb
  · intro b hb
    rcases List.mem_cons.mp hb with rfl | hb
    · exact ⟨by dsimp only; decide, by dsimp only; decide⟩
    · cases hb
  · intro b hb
    cases hb

/-! ### Newline-free suggestion items -/

theorem recapSplitGo_subset (prev : Option Char) (mode : Nat) (acc cs : List Char) :
    ∀ part ∈ recapSplitGo prev mode acc cs, ∀ c ∈ part, c ∈ acc ∨ c ∈ cs := by
  induction cs generalizing prev mode acc with
  | nil =>
    intro part hp c hc
    simp only [recapSplitGo, List.mem_singleton] at hp
    subst hp
    exact Or.inl (List.mem_reverse.mp hc)
  | cons c0 rest ih =>
    intro part hp c hc
    rw [recapSplitGo] at hp
    split_ifs at hp with h1 h2 h3 h4 h5 h6
    · rcases (ih (some c0) 1 acc) part hp c hc with h | h
      · exact Or.inl h
      · exact Or.inr (List.mem_cons_of_mem _ h)
    · rcases (ih (some c0) 0 [c0]) part hp c hc with h | h
      · rw [List.mem_singleton.mp h]
        exact Or.inr (List.mem_cons_self _ _)
      · exact Or.inr (List.mem_cons_of_mem _ h)
    · rcases (ih (some c0) 2 acc) part hp c hc with h | h
      · exact Or.inl h
      · exact Or.inr (List.mem_cons_of_mem _ h)
    · rcases (ih (some c0) 0 [c0]) part hp c hc with h | h
      · rw [List.mem_singleton.mp h]
        exact Or.inr (List.mem_cons_self _ _)
      · exact Or.inr (List.mem_cons_of_mem _ h)
    · rcases List.mem_cons.mp hp with rfl | hp'
      · exact Or.inl (List.mem_reverse.mp hc)
      · rcases (ih (some c0) 1 []) part hp' c hc with h | h
        · cases h
        · exact Or.inr (List.mem_cons_of_mem _ h)
    · rcases List.mem_cons.mp hp with rfl | hp'
      · exact Or.inl (List.mem_reverse.mp hc)
      · rcases (ih (some c0) 2 []) part hp' c hc with h | h
        · cases h
        · exact Or.inr (List.mem_cons_of_mem _ h)
    · rcases (ih (some c0) 0 (c0 :: acc)) part hp c hc with h | h
      · rcases List.mem_cons.mp h with rfl | h'
        · exact Or.inr (List.mem_cons_self _ _)
        · exact Or.inl h'
      · exact Or.inr (List.mem_cons_of_mem _ h)

theorem dedupFirst_subset (seen : List (List Char)) (l : List (List Char)) :
    ∀ t ∈ dedupFirst seen l, t ∈ l := by
  induction l generalizing seen with
  | nil => simp [dedupFirst]
  | cons x xs ih =>
    intro t ht
    rw [dedupFirst] at ht
    by_cases hx : x ∈ seen
    · rw [if_pos hx] at ht
      exact List.mem_cons_of_mem _ (ih seen t ht)
    · rw [if_neg hx] at ht
      rcases List.mem_cons.mp ht with rfl | ht'
      · exact List.mem_cons_self _ _
      · exact List.mem_cons_of_mem _ (ih (seen ++ [x]) t ht')

theorem recapToTopics_noBrk {recap : List Char} (h : noBrk recap) :
    ∀ t ∈ recapToTopics recap, noBrk t := by
  intro t ht c hc
  unfold recapToTopics at ht
  by_cases hr : recap = []
  · rw [if_pos hr] at ht
    cases ht
  · rw [if_neg hr] at ht
    dsimp only at ht
    have ht2 := List.take_subset 12 _ ht
    have ht3 := dedupFirst_subset [] _ t ht2
    rw [List.mem_filterMap] at ht3
    rcases ht3 with ⟨p, hp, hcond⟩
    have ht4 : t = pyStripP isRecapTrimChar p := by
      by_cases hlen : 3 ≤ (pyStripP isRecapTrimChar p).length
      · rw [if_pos hlen] at hcond
        exact (Option.some_inj.mp hcond).symm
      · rw [if_neg hlen] at hcond
        cases hcond
    rw [ht4] at hc
    have h5 := mem_pyStripP hc
    rcases recapSplitGo_subset none 0 [] recap p hp c h5 with h6 | h6
    · cases h6
    · exact h c h6

theorem plan_titles_noBrk (sug : MeetingSuggestions) :
    ∀ ti ∈ subsectionPlan sug, noBrk ti.1 := by
  intro ti hti
  unfold subsectionPlan at hti
  rcases List.mem_cons.mp hti with rfl | hti
  · exact by dsimp only; unfold noBrk; decide
  · rcases List.mem_cons.mp hti with rfl | hti
    · exact by dsimp only; unfold noBrk; decide
    · rcases List.mem_cons.mp hti with rfl | hti
      · exact by dsimp only; unfold noBrk; decide
      · cases hti

theorem subsectionPlan_noBrk {sug : MeetingSuggestions}
    (hr : noBrk sug.recap.data)
    (ha : ∀ a ∈ sug.actions, noBrk a.data)
    (hd : ∀ d ∈ sug.decisions, noBrk d.data) :
    ∀ ti ∈ subsectionPlan sug, ∀ i ∈ ti.2, noBrk i := by
  intro ti hti
  unfold subsectionPlan at hti
  rcases List.mem_cons.mp hti with rfl | hti
  · exact fun i hi => recapToTopics_noBrk hr i hi
  · rcases List.mem_cons.mp hti with rfl | hti
    · intro i hi
      rcases List.mem_map.mp hi with ⟨a, haa, rfl⟩
      exact ha a haa
    · rcases List.mem_cons.mp hti with rfl | hti
      · intro i hi
        rcases List.mem_map.mp hi with ⟨d, hdd, rfl⟩
        exact hd d hdd
      · cases hti

theorem sectionTemplate_noBrk {d n m : List Char}
    (hd : noBrk d) (hn : noBrk n) (hm : noBrk m) :
    noBrk (sectionTemplate d n m) := by
  unfold sectionTemplate noBrk
  intro c hmem
  simp only [List.mem_append] at hmem
  rcases hmem with (((((hx | hx) | hx) | hx) | hx) | hx) | hx
  · exact (by decide : ∀ x ∈ ("## [".data : List Char),
      isLineBreak x = false) c hx
  · exact hd c hx
  · exact (by decide : ∀ x ∈ ("] ".data : List Char),
      isLineBreak x = false) c hx
  · exact hn c hx
  · exact (by decide : ∀ x ∈ ("  <!-- id:".data : List Char),
      isLineBreak x = false) c hx
  · exact hm c hx
  · exact (by decide : ∀ x ∈ (" -->".data : List Char),
      isLineBreak x = false) c hx

/-! ### Shapes of generated lines -/

theorem NlLine_header {t : List Char} (ht : noBrk t) :
    NlLine ("### ".data ++ t ++ ['\n']) :=
  ⟨"### ".data ++ t, rfl, by
    intro c hmem
    rcases List.mem_append.mp hmem with h | h
    · exact (by decide : ∀ x ∈ ("### ".data : List Char),
        isLineBreak x = false) c h
    · exact ht c h⟩

theorem NlLine_bullet {i : List Char} (hi : noBrk i) :
    NlLine ('-' :: ' ' :: (pyStrip i ++ ['\n'])) := by
  refine ⟨'-' :: ' ' :: pyStrip i, rfl, ?_⟩
  intro c hmem
  rcases List.mem_cons.mp hmem with rfl | hmem
  · decide
  rcases List.mem_cons.mp hmem with rfl | hmem
  · decide
  · exact hi c (mem_pyStripP hmem)

theorem mem_buildSubsection {l : Line} {t : List Char} {items : List (List Char)}
    (h : l ∈ buildSubsection t items) :
    l = "### ".data ++ t ++ ['\n'] ∨
      (∃ i ∈ items, l = '-' :: ' ' :: (pyStrip i ++ ['\n']) ∧ pyStrip i ≠ []) ∨
      l = ['\n'] := by
  unfold buildSubsection at h
  by_cases hne : items = []
  · rw [if_pos hne] at h
    cases h
  · rw [if_neg hne] at h
    rcases List.mem_cons.mp h with rfl | h
    · exact Or.inl rfl
    · rcases List.mem_append.mp h with h | h
      · exact Or.inr (Or.inl (mem_bulletsOf h))
      · exact Or.inr (Or.inr (List.mem_singleton.mp h))

theorem buildSub_endsNl {l : Line} {t : List Char} {items : List (List Char)}
    (h : l ∈ buildSubsection t items) : endsWithChar '\n' l = true := by
  rcases mem_buildSubsection h with h | ⟨i, _, hsh, _⟩ | h
  · rw [h]
    exact endsWith_concat _
  · rw [hsh]
    have h2 : '-' :: ' ' :: (pyStrip i ++ ['\n']) =
        ('-' :: ' ' :: pyStrip i) ++ ['\n'] := rfl
    rw [h2]
    exact endsWith_concat _
  · rw [h]
    decide

theorem getLast?_cons_mem {α : Type} (x : α) (l : List α) :
    ∃ a, (x :: l).getLast? = some a ∧ a ∈ x :: l := by
  cases hl : (x :: l).getLast? with
  | none =>
    rw [List.getLast?_eq_none_iff] at hl
    cases hl
  | some a => exact ⟨a, rfl, getLast?_mem' hl⟩

/-- The trailing-newline fix at the end of the insert path's block
builder never fires: the block always ends in a newline already. -/
theorem buildSectionBlock_eq (hdr : List Char) (sug : MeetingSuggestions) :
    buildSectionBlock hdr sug = (hdr ++ ['\n']) ::
      ((subsectionPlan sug).map (fun p => buildSubsection p.1 p.2)).flatten := by
  unfold buildSectionBlock
  dsimp only
  rw [if_pos]
  rcases getLast?_cons_mem (hdr ++ ['\n'])
    ((subsectionPlan sug).map (fun p => buildSubsection p.1 p.2)).flatten with
    ⟨a, ha, hmem⟩
  rw [ha]
  rw [Option.getD_some]
  rcases List.mem_cons.mp hmem with rfl | hmem
  · exact endsWith_concat hdr
  · rcases List.mem_flatten.mp hmem with ⟨blk, hblk, hablk⟩
    rcases List.mem_map.mp hblk with ⟨p, _, rfl⟩
    exact buildSub_endsNl hablk

/-! ### The update loop preserves line properness and the section shape -/

theorem stepSubsection_proper (mod : Bool) {sec : List Line} {t : List Char}
    {items : List (List Char)}
    (hsec : ∀ l ∈ sec, NlLine l) (ht : noBrk t)
    (hitems : ∀ i ∈ items, noBrk i) :
    ∀ l ∈ (stepSubsection (sec, mod) (t, items)).1, NlLine l := by
  unfold stepSubsection
  dsimp only
  by_cases hne : items = []
  · rw [if_pos hne]
    exact hsec
  rw [if_neg hne]
  cases hfind : subFind sec t with
  | none =>
    dsimp only
    have hnew : ∀ x ∈ ("### ".data ++ t ++ ['\n']) ::
        (bulletsOf items ++ [['\n']]), NlLine x := by
      intro x hx
      rcases List.mem_cons.mp hx with rfl | hx
      · exact NlLine_header ht
      rcases List.mem_append.mp hx with hx | hx
      · rcases mem_bulletsOf hx with ⟨i, hi, hsh, _⟩
        rw [hsh]
        exact NlLine_bullet (hitems i hi)
      · rw [List.mem_singleton.mp hx]
        exact ⟨[], rfl, by simp [noBrk]⟩
    have hcomb : ∀ (s1 : List Line), (∀ x ∈ s1, NlLine x) →
        ∀ l ∈ s1 ++ ("### ".data ++ t ++ ['\n']) ::
          (bulletsOf items ++ [['\n']]), NlLine l := by
      intro s1 hs1 l hlm
      rcases List.mem_append.mp hlm with hlm | hlm
      · exact hs1 l hlm
      · exact hnew l hlm
    cases hlast : sec.getLast? with
    | none =>
      dsimp only
      exact hcomb sec hsec
    | some l0 =>
      dsimp only
      by_cases hnl : endsWithChar '\n' l0 = true
      · rw [if_pos hnl]
        exact hcomb sec hsec
      · rw [if_neg hnl]
        apply hcomb
        intro x hx
        rcases List.mem_append.mp hx with hx | hx
        · exact hsec x hx
        · rw [List.mem_singleton.mp hx]
          exact ⟨[], rfl, by simp [noBrk]⟩
  | some p =>
    rcases p with ⟨ss, se⟩
    dsimp only
    rcases mergeBulletsGo_src ((sec.drop (ss + 1)).take (se - (ss + 1)))
      (existingBulletSet ((sec.drop (ss + 1)).take (se - (ss + 1)))) items with
      ⟨F, hF, hprop⟩
    have hmg : mergeBullets ((sec.drop (ss + 1)).take (se - (ss + 1))) items =
        ((sec.drop (ss + 1)).take (se - (ss + 1))) ++ F := hF
    by_cases hch : mergeBullets ((sec.drop (ss + 1)).take (se - (ss + 1))) items ≠
        ((sec.drop (ss + 1)).take (se - (ss + 1)))
    · rw [if_pos hch, hmg]
      intro l hlm
      rcases List.mem_append.mp hlm with hlm | hlm
      · rcases List.mem_append.mp hlm with hlm | hlm
        · exact hsec l (List.take_subset _ _ hlm)
        · rcases List.mem_append.mp hlm with hlm | hlm
          · exact hsec l (List.drop_subset _ _ (List.take_subset _ _ hlm))
          · rcases hprop l hlm with ⟨i, hi, hsh, _, _⟩
            rw [hsh]
            exact NlLine_bullet (hitems i hi)
      · exact hsec l (List.drop_subset _ _ hlm)
    · rw [if_neg hch]
      exact hsec

theorem stepSubsection_shape (hl0 : Line) (mod : Bool) (t : List Char)
    (items : List (List Char)) {body : List Line}
    (hbody : ∀ l ∈ body, startsWithL "## ".data l = false) :
    ∃ body2, (stepSubsection (hl0 :: body, mod) (t, items)).1 = hl0 :: body2 ∧
      ∀ l ∈ body2, startsWithL "## ".data l = false := by
  unfold stepSubsection
  dsimp only
  by_cases hne : items = []
  · rw [if_pos hne]
    exact ⟨body, rfl, hbody⟩
  rw [if_neg hne]
  cases hfind : subFind (hl0 :: body) t with
  | none =>
    dsimp only
    have hnewsafe : ∀ x ∈ ("### ".data ++ t ++ ['\n']) ::
        (bulletsOf items ++ [['\n']]), startsWithL "## ".data x = false := by
      intro x hx
      rcases List.mem_cons.mp hx with rfl | hx
      · have hform : "### ".data ++ t ++ ['\n'] =
            '#' :: '#' :: '#' :: (' ' :: (t ++ ['\n'])) := by
          rfl
        rw [hform]
        exact hash2_false_of_hash3 _
      rcases List.mem_append.mp hx with hx | hx
      · rcases mem_bulletsOf hx with ⟨i, _, hsh, _⟩
        rw [hsh]
        exact hash2_head_ne _ (by decide)
      · rw [List.mem_singleton.mp hx]
        exact hash2_head_ne _ (by decide)
    cases hlast : (hl0 :: body).getLast? with
    | none =>
      dsimp only
      refine ⟨body ++ (("### ".data ++ t ++ ['\n']) ::
        (bulletsOf items ++ [['\n']])), by simp, ?_⟩
      intro l hlm
      rcases List.mem_append.mp hlm with hlm | hlm
      · exact hbody l hlm
      · exact hnewsafe l hlm
    | some l0 =>
      dsimp only
      by_cases hnl : endsWithChar '\n' l0 = true
      · rw [if_pos hnl]
        refine ⟨body ++ (("### ".data ++ t ++ ['\n']) ::
          (bulletsOf items ++ [['\n']])), by simp, ?_⟩
        intro l hlm
        rcases List.mem_append.mp hlm with hlm | hlm
        · exact hbody l hlm
        · exact hnewsafe l hlm
      · rw [if_neg hnl]
        refine ⟨(body ++ [['\n']]) ++ (("### ".data ++ t ++ ['\n']) ::
          (bulletsOf items ++ [['\n']])), by simp, ?_⟩
        intro l hlm
        rcases List.mem_append.mp hlm with hlm | hlm
        · rcases List.mem_append.mp hlm with hlm | hlm
          · exact hbody l hlm
          · rw [List.mem_singleton.mp hlm]
            exact hash2_head_ne _ (by decide)
        · exact hnewsafe l hlm
  | some p =>
    rcases p with ⟨ss, se⟩
    dsimp only
    rcases subFind_decomp hfind with
      ⟨P, HL, M, R, hsec, hlen, hP, hHL, hM, hse, _, hslice⟩
    rw [hslice]
    rcases mergeBulletsGo_src M (existingBulletSet M) items with ⟨F, hF, hprop⟩
    have hmg : mergeBullets M items = M ++ F := hF
    have hMsub : ∀ x ∈ M, x ∈ body := by
      intro x hx
      rw [← hslice] at hx
      have h1 := List.take_subset (se - (ss + 1)) _ hx
      rw [List.drop_succ_cons] at h1
      exact List.drop_subset _ _ h1
    by_cases hch : mergeBullets M items ≠ M
    · rw [if_pos hch, hmg]
      have hse1 : 1 ≤ se := by omega
      refine ⟨body.take ss ++ (M ++ F) ++ body.drop (se - 1), ?_, ?_⟩
      · rw [List.take_succ_cons]
        have hdropse : (hl0 :: body).drop se = body.drop (se - 1) := by
          have h2 : se = (se - 1) + 1 := by omega
          conv_lhs => rw [h2]
          rw [List.drop_succ_cons]
        rw [hdropse]
        simp
      · intro l hlm
        rcases List.mem_append.mp hlm with hlm | hlm
        · rcases List.mem_append.mp hlm with hlm | hlm
          · exact hbody l (List.take_subset _ _ hlm)
          · rcases List.mem_append.mp hlm with hlm | hlm
            · exact hbody l (hMsub l hlm)
            · rcases hprop l hlm with ⟨i, _, hsh, _, _⟩
              rw [hsh]
              exact hash2_head_ne _ (by decide)
        · exact hbody l (List.drop_subset _ _ hlm)
    · rw [if_neg hch]
      exact ⟨body, rfl, hbody⟩

theorem foldl_stepSubsection_proper
    (P : List (List Char × List (List Char))) (sec : List Line) (mod : Bool)
    (hsec : ∀ l ∈ sec, NlLine l)
    (htitles : ∀ ti ∈ P, noBrk ti.1)
    (hitems : ∀ ti ∈ P, ∀ i ∈ ti.2, noBrk i) :
    ∀ l ∈ (P.foldl stepSubsection (sec, mod)).1, NlLine l := by
  revert hsec htitles hitems
  induction P generalizing sec mod with
  | nil =>
    intro hsec _ _
    exact hsec
  | cons a P ih =>
    intro hsec htitles hitems
    rw [List.foldl_cons]
    rcases a with ⟨t, its⟩
    have hstep := stepSubsection_proper mod hsec
      (htitles (t, its) (List.mem_cons_self _ _))
      (hitems (t, its) (List.mem_cons_self _ _))
    cases hres : stepSubsection (sec, mod) (t, its) with
    | mk sec2 mod2 =>
      rw [hres] at hstep
      exact ih sec2 mod2 hstep
        (fun ti hti => htitles ti (List.mem_cons_of_mem _ hti))
        (fun ti hti => hitems ti (List.mem_cons_of_mem _ hti))

theorem foldl_stepSubsection_shape
    (P : List (List Char × List (List Char))) (hl0 : Line) (body : List Line)
    (mod : Bool)
    (hbody : ∀ l ∈ body, startsWithL "## ".data l = false) :
    ∃ body2, (P.foldl stepSubsection (hl0 :: body, mod)).1 = hl0 :: body2 ∧
      ∀ l ∈ body2, startsWithL "## ".data l = false := by
  revert hbody
  induction P generalizing body mod with
  | nil =>
    intro hbody
    exact ⟨body, rfl, hbody⟩
  | cons a P ih =>
    intro hbody
    rw [List.foldl_cons]
    rcases a with ⟨t, its⟩
    rcases stepSubsection_shape hl0 mod t its hbody with ⟨body2, hshape, hsafe⟩
    cases hres : stepSubsection (hl0 :: body, mod) (t, its) with
    | mk sec2 mod2 =>
      rw [hres] at hshape
      dsimp only at hshape
      rw [hshape]
      exact ih body2 mod2 hsafe

/-! ### The freshly inserted block is saturated -/

theorem SubSat_flatten_entry {pre0 : List Line}
    {Pa Pb : List (List Char × List (List Char))}
    {t : List Char} {items : List (List Char)} (hne : items ≠ [])
    (hpre0 : ∀ l ∈ pre0, startsWithL ("### ".data ++ t) l = false)
    (hPa : ∀ p ∈ Pa, ∀ l ∈ buildSubsection p.1 p.2,
      startsWithL ("### ".data ++ t) l = false) :
    SubSat (pre0 ++
      ((Pa ++ (t, items) :: Pb).map (fun p => buildSubsection p.1 p.2)).flatten)
      t items := by
  have hbuild : buildSubsection t items =
      ("### ".data ++ t ++ ['\n']) :: (bulletsOf items ++ [['\n']]) := by
    unfold buildSubsection
    rw [if_neg hne]
  have heq : pre0 ++
      ((Pa ++ (t, items) :: Pb).map (fun p => buildSubsection p.1 p.2)).flatten =
      (pre0 ++ (Pa.map (fun p => buildSubsection p.1 p.2)).flatten) ++
        ("### ".data ++ t ++ ['\n']) ::
          ((bulletsOf items ++ [['\n']]) ++
            (Pb.map (fun p => buildSubsection p.1 p.2)).flatten) := by
    rw [List.map_append, List.map_cons, List.flatten_append, List.flatten_cons,
      hbuild]
    simp
  apply SubSat_of_decomp heq ?_ ?_ ?_ ?_
  · intro l hl
    rcases List.mem_append.mp hl with hl | hl
    · exact hpre0 l hl
    · rcases List.mem_flatten.mp hl with ⟨blk, hblk, hlblk⟩
      rcases List.mem_map.mp hblk with ⟨p, hp, rfl⟩
      exact hPa p hp l hlblk
  · exact startsWithL_self_append ("### ".data ++ t) ['\n']
  · intro l hl
    rcases List.mem_append.mp hl with hl | hl
    · rcases mem_bulletsOf hl with ⟨i, _, hsh, _⟩
      rw [hsh]
      exact pEnd_of_head_ne _ (by decide)
    · rw [List.mem_singleton.mp hl]
      exact pEnd_of_head_ne _ (by decide)
  · intro i hi
    by_cases hs : pyStrip i = []
    · exact Or.inl hs
    · right
      rw [existingBulletSet_append]
      exact List.mem_append_left _ (strip_mem_bulletsOf hi hs)

theorem buildSub_safe_of_incompat {t t' : List Char} {its' : List (List Char)}
    (h12 : startsWithL ("### ".data ++ t) ("### ".data ++ t') = false)
    (h21 : startsWithL ("### ".data ++ t') ("### ".data ++ t) = false) :
    ∀ l ∈ buildSubsection t' its', startsWithL ("### ".data ++ t) l = false := by
  intro l hl
  rcases mem_buildSubsection hl with h | ⟨i, _, hsh, _⟩ | h
  · rw [h]
    by_contra hc
    rw [Bool.not_eq_false] at hc
    have hself : startsWithL ("### ".data ++ t')
        ("### ".data ++ t' ++ ['\n']) = true :=
      startsWithL_self_append _ _
    exact startsWith_incompat h12 h21 hc hself
  · rw [hsh]
    exact sub_prefix_head_ne _ (by decide)
  · rw [h]
    exact sub_prefix_head_ne _ (by decide)

theorem block_body_safe (sug : MeetingSuggestions) :
    ∀ l ∈ ((subsectionPlan sug).map (fun p => buildSubsection p.1 p.2)).flatten,
      startsWithL "## ".data l = false := by
  intro l hl
  rcases List.mem_flatten.mp hl with ⟨blk, hblk, hlblk⟩
  rcases List.mem_map.mp hblk with ⟨p, hp, rfl⟩
  rcases mem_buildSubsection hlblk with h | ⟨i, _, hsh, _⟩ | h
  · rw [h]
    have hform : "### ".data ++ p.1 ++ ['\n'] =
        '#' :: '#' :: '#' :: (' ' :: (p.1 ++ ['\n'])) := by
      rfl
    rw [hform]
    exact hash2_false_of_hash3 _
  · rw [hsh]
    exact hash2_head_ne _ (by decide)
  · rw [h]
    exact hash2_head_ne _ (by decide)

theorem block_lines_proper {sug : MeetingSuggestions} {hdr : List Char}
    (hhdr : noBrk hdr)
    (hplan : ∀ ti ∈ subsectionPlan sug, ∀ i ∈ ti.2, noBrk i) :
    ∀ l ∈ (hdr ++ ['\n']) ::
      ((subsectionPlan sug).map (fun p => buildSubsection p.1 p.2)).flatten,
      NlLine l := by
  intro l hl
  rcases List.mem_cons.mp hl with rfl | hl
  · exact ⟨hdr, rfl, hhdr⟩
  · rcases List.mem_flatten.mp hl with ⟨blk, hblk, hlblk⟩
    rcases List.mem_map.mp hblk with ⟨p, hp, rfl⟩
    rcases mem_buildSubsection hlblk with h | ⟨i, hi, hsh, _⟩ | h
    · rw [h]
      exact NlLine_header (plan_titles_noBrk sug p hp)
    · rw [hsh]
      exact NlLine_bullet (hplan p hp i hi)
    · rw [h]
      exact ⟨[], rfl, by simp [noBrk]⟩

/-- Each non-empty configured subsection is already saturated inside a
freshly built section block headed by the generated template line. -/
theorem SubSat_block0 {d n m : List Char} {sug : MeetingSuggestions}
    {t : List Char} {items : List (List Char)}
    (hmem : (t, items) ∈ subsectionPlan sug) (hne : items ≠ []) :
    SubSat ((sectionTemplate d n m ++ ['\n']) ::
      ((subsectionPlan sug).map (fun p => buildSubsection p.1 p.2)).flatten)
      t items := by
  have htmpl : ∀ (tt : List Char),
      ∀ l ∈ [sectionTemplate d n m ++ ['\n']],
        startsWithL ("### ".data ++ tt) l = false := by
    intro tt l hl
    rw [List.mem_singleton.mp hl]
    exact template_not_sub_prefixed tt d n m
  unfold subsectionPlan at hmem
  rcases List.mem_cons.mp hmem with heq | hmem
  · obtain ⟨rfl, rfl⟩ := Prod.mk.injEq .. |>.mp heq
    show SubSat ([sectionTemplate d n m ++ ['\n']] ++
      ((([] : List (List Char × List (List Char))) ++
        ("Topics Discussed".data, recapToTopics sug.recap.data) ::
          [("To Do".data, sug.actions.map String.data),
           ("Accomplished".data, sug.decisions.map String.data)]).map
        (fun p => buildSubsection p.1 p.2)).flatten) "Topics Discussed".data
      (recapToTopics sug.recap.data)
    exact SubSat_flatten_entry hne (htmpl _) (fun p hp => by cases hp)
  rcases List.mem_cons.mp hmem with heq | hmem
  · obtain ⟨rfl, rfl⟩ := Prod.mk.injEq .. |>.mp heq
    show SubSat ([sectionTemplate d n m ++ ['\n']] ++
      (([("Topics Discussed".data, recapToTopics sug.recap.data)] ++
        ("To Do".data, sug.actions.map String.data) ::
          [("Accomplished".data, sug.decisions.map String.data)]).map
        (fun p => buildSubsection p.1 p.2)).flatten) "To Do".data
      (sug.actions.map String.data)
    apply SubSat_flatten_entry hne (htmpl _)
    intro p hp
    rcases List.mem_singleton.mp hp with rfl
    exact buildSub_safe_of_incompat (by dsimp only; decide) (by dsimp only; decide)
  rcases List.mem_cons.mp hmem with heq | hmem
  · obtain ⟨rfl, rfl⟩ := Prod.mk.injEq .. |>.mp heq
    show SubSat ([sectionTemplate d n m ++ ['\n']] ++
      (([("Topics Discussed".data, recapToTopics sug.recap.data),
         ("To Do".data, sug.actions.map String.data)] ++
        ("Accomplished".data, sug.decisions.map String.data) :: []).map
        (fun p => buildSubsection p.1 p.2)).flatten) "Accomplished".data
      (sug.decisions.map String.data)
    apply SubSat_flatten_entry hne (htmpl _)
    intro p hp
    rcases List.mem_cons.mp hp with rfl | hp
    · exact buildSub_safe_of_incompat (by dsimp only; decide) (by dsimp only; decide)
    · rcases List.mem_singleton.mp hp with rfl
      exact buildSub_safe_of_incompat (by dsimp only; decide) (by dsimp only; decide)
  · cases hmem

/-- The insert path in decomposed form: some safe prefix, then the new
header line, then the block body, then the remainder of the document. -/
theorem insertNewSection_decomp (lines : List Line) (hdr : List Char)
    (sug : MeetingSuggestions)
    (hnone : ∀ l ∈ lines, (pyStrip l == pyStrip hdr) = false)
    (hne0 : pyStrip hdr ≠ []) :
    ∃ pre, insertNewSection lines hdr sug =
        pre ++ (hdr ++ ['\n']) ::
          (((subsectionPlan sug).map (fun p => buildSubsection p.1 p.2)).flatten
            ++ lines.drop (insertIdxOf lines)) ∧
      (∀ l ∈ pre, (pyStrip l == pyStrip hdr) = false) ∧
      (∀ l ∈ pre, l ∈ lines ∨ l = ['\n']) := by
  have hnl : (pyStrip ['\n'] == pyStrip hdr) = false := by
    have h0 : pyStrip ['\n'] = ([] : List Char) := by decide
    rw [h0]
    cases hbeq : (([] : List Char) == pyStrip hdr) with
    | false => rfl
    | true => exact absurd (eq_of_beq hbeq).symm hne0
  unfold insertNewSection
  dsimp only
  rw [buildSectionBlock_eq]
  have hpretake : ∀ l ∈ lines.take (insertIdxOf lines),
      (pyStrip l == pyStrip hdr) = false :=
    fun l hl => hnone l (List.take_subset _ _ hl)
  have hmemtake : ∀ l ∈ lines.take (insertIdxOf lines), l ∈ lines ∨ l = ['\n'] :=
    fun l hl => Or.inl (List.take_subset _ _ hl)
  have hsafe1 : ∀ l ∈ lines.take (insertIdxOf lines) ++ [['\n']],
      (pyStrip l == pyStrip hdr) = false := by
    intro l hl
    rcases List.mem_append.mp hl with hl | hl
    · exact hpretake l hl
    · rw [List.mem_singleton.mp hl]
      exact hnl
  have hmem1 : ∀ l ∈ lines.take (insertIdxOf lines) ++ [['\n']],
      l ∈ lines ∨ l = ['\n'] := by
    intro l hl
    rcases List.mem_append.mp hl with hl | hl
    · exact hmemtake l hl
    · rw [List.mem_singleton.mp hl]
      exact Or.inr rfl
  by_cases h1 : insertIdxOf lines < lines.length ∧
      pyStrip (lines.getD (insertIdxOf lines) []) ≠ []
  · rw [if_pos h1]
    by_cases h2 : 0 < insertIdxOf lines ∧
        pyStrip (lines.getD (insertIdxOf lines - 1) []) ≠ []
    · rw [if_pos h2]
      refine ⟨lines.take (insertIdxOf lines) ++ [['\n'], ['\n']], by simp, ?_, ?_⟩
      · intro l hl
        rcases List.mem_append.mp hl with hl | hl
        · exact hpretake l hl
        · rcases List.mem_cons.mp hl with rfl | hl
          · exact hnl
          · rw [List.mem_singleton.mp hl]
            exact hnl
      · intro l hl
        rcases List.mem_append.mp hl with hl | hl
        · exact hmemtake l hl
        · rcases List.mem_cons.mp hl with rfl | hl
          · exact Or.inr rfl
          · rw [List.mem_singleton.mp hl]
            exact Or.inr rfl
    · rw [if_neg h2]
      exact ⟨lines.take (insertIdxOf lines) ++ [['\n']], by simp, hsafe1, hmem1⟩
  · rw [if_neg h1]
    by_cases h2 : 0 < insertIdxOf lines ∧
        pyStrip (lines.getD (insertIdxOf lines - 1) []) ≠ []
    · rw [if_pos h2]
      exact ⟨lines.take (insertIdxOf lines) ++ [['\n']], by simp, hsafe1, hmem1⟩
    · rw [if_neg h2]
      exact ⟨lines.take (insertIdxOf lines), by simp, hpretake, hmemtake⟩

/-- Core second-call lemma: one application of the upsert (at the line
level) leaves the document in a state the next identical application
does not change, provided the header fields and all candidate items are
newline-free. -/
theorem upsertLines_second (L0 : List Line) (d n m : List Char)
    (sug : MeetingSuggestions)
    (hprop : ∀ l ∈ L0, NlLine l)
    (hd : noBrk d) (hn : noBrk n) (hm : noBrk m)
    (hplan : ∀ ti ∈ subsectionPlan sug, ∀ i ∈ ti.2, noBrk i) :
    (∀ l ∈ (upsertLines L0 (sectionTemplate d n m) sug).1, NlLine l) ∧
    (upsertLines L0 (sectionTemplate d n m) sug).1 ≠ [] ∧
    upsertLines (upsertLines L0 (sectionTemplate d n m) sug).1
        (sectionTemplate d n m) sug
      = ((upsertLines L0 (sectionTemplate d n m) sug).1, false) := by
  cases hfind : findSectionBounds L0 (sectionTemplate d n m) with
  | none =>
    have hres : upsertLines L0 (sectionTemplate d n m) sug =
        (insertNewSection L0 (sectionTemplate d n m) sug, true) := by
      unfold upsertLines
      rw [hfind]
    rw [hres]
    dsimp only
    have hnone := findSectionBounds_none hfind
    rcases insertNewSection_decomp L0 (sectionTemplate d n m) sug hnone
      (pyStrip_template_ne_nil d n m) with ⟨pre, hins, hpre, hprem⟩
    have hproper : ∀ l ∈ insertNewSection L0 (sectionTemplate d n m) sug,
        NlLine l := by
      rw [hins]
      intro l hl
      rcases List.mem_append.mp hl with hl | hl
      · rcases hprem l hl with hl2 | hl2
        · exact hprop l hl2
        · rw [hl2]
          exact ⟨[], rfl, by simp [noBrk]⟩
      · rcases List.mem_cons.mp hl with rfl | hl
        · exact ⟨sectionTemplate d n m, rfl, sectionTemplate_noBrk hd hn hm⟩
        · rcases List.mem_append.mp hl with hl | hl
          · exact block_lines_proper (sectionTemplate_noBrk hd hn hm) hplan l
              (List.mem_cons_of_mem _ hl)
          · exact hprop l (List.drop_subset _ _ hl)
    refine ⟨hproper, ?_, ?_⟩
    · rw [hins]
      simp
    · have hh2 : pyStrip (sectionTemplate d n m ++ ['\n']) =
          pyStrip (sectionTemplate d n m) := pyStrip_snoc_nl _
      rcases findSectionBounds_of_decomp hins hpre hh2 (block_body_safe sug)
        with ⟨e1, tail, hfind2, hslice2⟩
      apply upsertLines_noop hfind2
      intro ti hti
      by_cases hne : ti.2 = []
      · exact Or.inl hne
      · right
        rw [hslice2]
        have hshape2 : (sectionTemplate d n m ++ ['\n']) ::
            (((subsectionPlan sug).map
              (fun p => buildSubsection p.1 p.2)).flatten ++ tail) =
            ((sectionTemplate d n m ++ ['\n']) ::
              ((subsectionPlan sug).map
                (fun p => buildSubsection p.1 p.2)).flatten) ++ tail := by
          simp
        rw [hshape2]
        exact SubSat_append (SubSat_block0 hti hne) tail
  | some p =>
    rcases p with ⟨s, e⟩
    rcases findSectionBounds_decomp hfind with
      ⟨pre, hl, mid, rest, hlines, hlen, hpre, hh, hmid, he, hrest, hslice⟩
    have hpreL : ∀ x ∈ pre, x ∈ L0 := by
      intro x hx
      rw [hlines]
      exact List.mem_append_left _ hx
    have hrestL : ∀ x ∈ rest, x ∈ L0 := by
      intro x hx
      rw [hlines]
      simp [hx]
    by_cases hmod : (processSubsections ((L0.drop s).take (e - s)) sug).2 = true
    · have hfold : processSubsections ((L0.drop s).take (e - s)) sug =
          (subsectionPlan sug).foldl stepSubsection (hl :: mid, false) := by
        unfold processSubsections
        rw [hslice]
      rcases foldl_stepSubsection_shape (subsectionPlan sug) hl mid false hmid
        with ⟨bodyF, hshapeF, hsafeF⟩
      have hsecF : (processSubsections ((L0.drop s).take (e - s)) sug).1 =
          hl :: bodyF := by
        rw [hfold]
        exact hshapeF
      have hsecprop : ∀ x ∈ hl :: mid, NlLine x := by
        intro x hx
        rw [← hslice] at hx
        exact hprop x (List.drop_subset _ _ (List.take_subset _ _ hx))
      have hFprop : ∀ l ∈ hl :: bodyF, NlLine l := by
        have h0 := foldl_stepSubsection_proper (subsectionPlan sug) (hl :: mid)
          false hsecprop (plan_titles_noBrk sug) hplan
        rw [hshapeF] at h0
        exact h0
      have hsatF : ∀ ti ∈ subsectionPlan sug,
          ti.2 = [] ∨ SubSat (hl :: bodyF) ti.1 ti.2 := by
        intro ti hti
        rcases foldl_stepSubsection_sat (subsectionPlan sug) (hl :: mid) false
          (subsectionPlan_pairwise sug) ti hti with h0 | h0
        · exact Or.inl h0
        · right
          rw [hshapeF] at h0
          exact h0
      have htks : L0.take s = pre := by
        rw [hlines]
        exact List.take_left' hlen
      have hdre : L0.drop e = rest := by
        rw [hlines, he, ← hlen]
        exact drop_decomp2 pre hl mid rest
      have hres1 : upsertLines L0 (sectionTemplate d n m) sug =
          (pre ++ hl :: (bodyF ++ rest), true) := by
        unfold upsertLines
        rw [hfind]
        dsimp only
        rw [hmod, hsecF, htks, hdre]
        simp
      rw [hres1]
      dsimp only
      refine ⟨?_, by simp, ?_⟩
      · intro l hl2
        rcases List.mem_append.mp hl2 with hl2 | hl2
        · exact hprop l (hpreL l hl2)
        · rcases List.mem_cons.mp hl2 with rfl | hl2
          · exact hFprop l (List.mem_cons_self _ _)
          · rcases List.mem_append.mp hl2 with hl2 | hl2
            · exact hFprop l (List.mem_cons_of_mem _ hl2)
            · exact hprop l (hrestL l hl2)
      · rcases findSectionBounds_of_decomp
          (rfl : pre ++ hl :: (bodyF ++ rest) = pre ++ hl :: (bodyF ++ rest))
          hpre hh hsafeF with ⟨e1, tail, hfind2, hslice2⟩
        apply upsertLines_noop hfind2
        intro ti hti
        rcases hsatF ti hti with h0 | h0
        · exact Or.inl h0
        · right
          rw [hslice2]
          have hshape2 : hl :: (bodyF ++ tail) = (hl :: bodyF) ++ tail := by
            simp
          rw [hshape2]
          exact SubSat_append h0 tail
    · have hres2 : upsertLines L0 (sectionTemplate d n m) sug = (L0, false) := by
        unfold upsertLines
        rw [hfind]
        dsimp only
        rw [Bool.not_eq_true] at hmod
        rw [hmod]
        simp
      rw [hres2]
      dsimp only
      refine ⟨hprop, ?_, hres2⟩
      rw [hlines]
      simp

/-- Re-running the upsert with identical arguments is a no-op at the
string level, once the document's breaks are plain newlines and every
argument and candidate item is free of line-break characters. -/
theorem upsert_rerun_core (doc date name mid : String) (sug : MeetingSuggestions)
    (hdoc : onlyNl doc.data)
    (hd : noBrk date.data) (hn : noBrk name.data) (hm : noBrk mid.data)
    (hr : noBrk sug.recap.data)
    (ha : ∀ a ∈ sug.actions, noBrk a.data)
    (hdec : ∀ dd ∈ sug.decisions, noBrk dd.data) :
    upsert_meeting_section (upsert_meeting_section doc date name mid sug).1
        date name mid sug
      = ((upsert_meeting_section doc date name mid sug).1, false) := by
  obtain ⟨Hprop, Hne, Hidem⟩ := upsertLines_second
    (splitLinesK (normalizeContent doc.data)) date.data name.data mid.data sug
    (normalizeContent_proper hdoc) hd hn hm (subsectionPlan_noBrk hr ha hdec)
  by_cases hmod : (upsertLines (splitLinesK (normalizeContent doc.data))
      (sectionTemplate date.data name.data mid.data) sug).2 = true
  · have hfst : upsert_meeting_section doc date name mid sug =
        (String.mk (joinL (upsertLines (splitLinesK (normalizeContent doc.data))
          (sectionTemplate date.data name.data mid.data) sug).1), true) := by
      unfold upsert_meeting_section
      dsimp only
      rw [hmod]
      simp
    rw [hfst]
    dsimp only
    unfold upsert_meeting_section
    dsimp only
    have hnorm : normalizeContent (String.mk (joinL
        (upsertLines (splitLinesK (normalizeContent doc.data))
          (sectionTemplate date.data name.data mid.data) sug).1)).data =
        joinL (upsertLines (splitLinesK (normalizeContent doc.data))
          (sectionTemplate date.data name.data mid.data) sug).1 := by
      show normalizeContent (joinL
        (upsertLines (splitLinesK (normalizeContent doc.data))
          (sectionTemplate date.data name.data mid.data) sug).1) =
        joinL (upsertLines (splitLinesK (normalizeContent doc.data))
          (sectionTemplate date.data name.data mid.data) sug).1
      exact normalizeContent_of_ends (joinL_ends_nl Hne Hprop)
    rw [hnorm, splitLinesK_joinL Hprop, Hidem]
    simp
  · have hfst : upsert_meeting_section doc date name mid sug = (doc, false) := by
      unfold upsert_meeting_section
      dsimp only
      rw [Bool.not_eq_true] at hmod
      rw [hmod]
      simp
    rw [hfst]
    dsimp only
    exact hfst

/-- **C3, counterexample.** The idempotence claim fails as stated: an
action item containing a newline is written as one bullet line whose
text splits across two physical lines, so the second run does not find
it in the existing-bullet set and appends it again. -/
theorem upsert_twice_not_idempotent_cex :
    (upsert_meeting_section
        (upsert_meeting_section "" "2024-01-02" "M" "x1"
          ⟨"", [], ["a\nb"], [], []⟩).1
        "2024-01-02" "M" "x1" ⟨"", [], ["a\nb"], [], []⟩).1
      ≠ (upsert_meeting_section "" "2024-01-02" "M" "x1"
          ⟨"", [], ["a\nb"], [], []⟩).1 := by
  decide

/-- **C3 (amended).** For every wiki document whose line breaks are
plain `'\n'` and every `MeetingSuggestions` with at least one non-empty
list whose texts (and the date, name and meeting id) contain none of
Python's line-break characters (`\n`, `\r`, `\v`, `\f`, `\x1c`-`\x1e`,
`\x85`, `U+2028`, `U+2029`), calling `upsert_meeting_section` twice in
a row with identical arguments yields a document identical to calling
it once, and the second call reports `changed = false`: no bullet and
no header is duplicated. -/
theorem upsert_twice_idempotent (doc date name mid : String)
    (sug : MeetingSuggestions)
    (hdoc : onlyNl doc.data)
    (hd : noBrk date.data) (hn : noBrk name.data) (hm : noBrk mid.data)
    (hr : noBrk sug.recap.data)
    (ha : ∀ a ∈ sug.actions, noBrk a.data)
    (hdec : ∀ dd ∈ sug.decisions, noBrk dd.data)
    (_hne : sug.decisions ≠ [] ∨ sug.actions ≠ [] ∨ sug.risks ≠ [] ∨
      sug.open_questions ≠ []) :
    upsert_meeting_section (upsert_meeting_section doc date name mid sug).1
        date name mid sug
      = ((upsert_meeting_section doc date name mid sug).1, false) :=
  upsert_rerun_core doc date name mid sug hdoc hd hn hm hr ha hdec

/-- **C3, witness.** The amended idempotence theorem applied at a
concrete document and suggestion set. -/
theorem upsert_twice_idempotent_witness :
    upsert_meeting_section
        (upsert_meeting_section "# Wiki\n" "2024-01-02" "Sync" "m1"
          ⟨"", [], ["do thing"], [], []⟩).1
        "2024-01-02" "Sync" "m1" ⟨"", [], ["do thing"], [], []⟩
      = ((upsert_meeting_section "# Wiki\n" "2024-01-02" "Sync" "m1"
          ⟨"", [], ["do thing"], [], []⟩).1, false) :=
  upsert_twice_idempotent "# Wiki\n" "2024-01-02" "Sync" "m1"
    ⟨"", [], ["do thing"], [], []⟩
    (by unfold onlyNl; decide)
    (by unfold noBrk; decide) (by unfold noBrk; decide)
    (by unfold noBrk; decide) (by unfold noBrk; decide)
    (by
      intro a haa
      rw [List.mem_singleton] at haa
      subst haa
      unfold noBrk
      decide)
    (by intro dd hdd; cases hdd)
    (Or.inr (Or.inl (by decide)))

/-! ### The update path only inserts lines -/

theorem stepSubsection_sublist (sec : List Line) (mod : Bool)
    (t : List Char) (items : List (List Char)) :
    List.Sublist sec (stepSubsection (sec, mod) (t, items)).1 := by
  unfold stepSubsection
  dsimp only
  by_cases hne : items = []
  · rw [if_pos hne]
  rw [if_neg hne]
  cases hfind : subFind sec t with
  | none =>
    dsimp only
    cases hlast : sec.getLast? with
    | none =>
      dsimp only
      exact List.sublist_append_left sec _
    | some l0 =>
      dsimp only
      by_cases hnl : endsWithChar '\n' l0 = true
      · rw [if_pos hnl]
        exact List.sublist_append_left sec _
      · rw [if_neg hnl]
        rw [List.append_assoc]
        exact List.sublist_append_left sec _
  | some p =>
    rcases p with ⟨ss, se⟩
    dsimp only
    rcases subFind_decomp hfind with
      ⟨P, HL, M, R, hsec, hlen, hP, hHL, hM, hse, _, hslice⟩
    rw [hslice]
    rcases mergeBulletsGo_src M (existingBulletSet M) items with ⟨F, hF, _⟩
    have hmg : mergeBullets M items = M ++ F := hF
    by_cases hch : mergeBullets M items ≠ M
    · rw [if_pos hch, hmg]
      have hsse : ss + 1 ≤ se := by omega
      have hid : sec.take (ss + 1) ++
          ((sec.drop (ss + 1)).take (se - (ss + 1)) ++ sec.drop se) = sec :=
        take_middle_drop sec hsse
      rw [hslice] at hid
      have hsub : List.Sublist (sec.take (ss + 1) ++ (M ++ sec.drop se))
          (sec.take (ss + 1) ++ (M ++ (F ++ sec.drop se))) :=
        List.Sublist.append_left
          (List.Sublist.append_left (List.sublist_append_right F _) M) _
      rw [hid] at hsub
      have hassoc : sec.take (ss + 1) ++ (M ++ (F ++ sec.drop se)) =
          sec.take (ss + 1) ++ (M ++ F) ++ sec.drop se := by
        simp
      rw [hassoc] at hsub
      exact hsub
    · rw [if_neg hch]

theorem foldl_stepSubsection_sublist
    (P : List (List Char × List (List Char))) (sec : List Line) (mod : Bool) :
    List.Sublist sec (P.foldl stepSubsection (sec, mod)).1 := by
  induction P generalizing sec mod with
  | nil => exact List.Sublist.refl sec
  | cons a P ih =>
    rw [List.foldl_cons]
    rcases a with ⟨t, items⟩
    have h1 := stepSubsection_sublist sec mod t items
    cases hres : stepSubsection (sec, mod) (t, items) with
    | mk sec2 mod2 =>
      rw [hres] at h1
      exact h1.trans (ih sec2 mod2)

theorem joinL_infix {L : Line} {lines : List Line} (h : L ∈ lines) :
    ∃ A B, joinL lines = A ++ (L ++ B) := by
  induction lines with
  | nil => cases h
  | cons x xs ih =>
    rcases List.mem_cons.mp h with rfl | h
    · exact ⟨[], joinL xs, by rw [joinL, List.foldr_cons]; simp [joinL]⟩
    · rcases ih h with ⟨A, B, hAB⟩
      refine ⟨x ++ A, B, ?_⟩
      rw [joinL, List.foldr_cons]
      show x ++ joinL xs = x ++ A ++ (L ++ B)
      rw [hAB]
      simp

theorem upsertLines_update_sublist {lines : List Line} {hdr : List Char}
    (sug : MeetingSuggestions) {s e : Nat}
    (hfind : findSectionBounds lines hdr = some (s, e)) :
    List.Sublist lines (upsertLines lines hdr sug).1 := by
  rcases findSectionBounds_decomp hfind with
    ⟨pre, hl, mid, rest, hlines, hlen, hpre, hh, hmid, he, hrest, hslice⟩
  unfold upsertLines
  rw [hfind]
  dsimp only
  by_cases hmod : (processSubsections ((lines.drop s).take (e - s)) sug).2 = true
  · rw [hmod]
    simp only [if_true]
    have hse : s ≤ e := by omega
    have hid : lines.take s ++
        ((lines.drop s).take (e - s) ++ lines.drop e) = lines :=
      take_middle_drop lines hse
    have hsubF : List.Sublist ((lines.drop s).take (e - s))
        ((processSubsections ((lines.drop s).take (e - s)) sug).1) :=
      foldl_stepSubsection_sublist (subsectionPlan sug)
        ((lines.drop s).take (e - s)) false
    have hsub : List.Sublist
        (lines.take s ++ ((lines.drop s).take (e - s) ++ lines.drop e))
        (lines.take s ++
          ((processSubsections ((lines.drop s).take (e - s)) sug).1 ++
            lines.drop e)) :=
      List.Sublist.append_left (hsubF.append (List.Sublist.refl _)) _
    rw [hid] at hsub
    have hassoc : lines.take s ++
        ((processSubsections ((lines.drop s).take (e - s)) sug).1 ++
          lines.drop e) =
        lines.take s ++
          (processSubsections ((lines.drop s).take (e - s)) sug).1 ++
          lines.drop e := by
      simp
    rw [hassoc] at hsub
    exact hsub
  · rw [Bool.not_eq_true] at hmod
    rw [hmod]
    simp

/-- **C4.** When the meeting's section already exists, re-running the
upsert only ever inserts lines: every line of the original document —
in particular a manually added bullet `L` — survives verbatim and in
order in the output (also as a contiguous substring of the rejoined
text), and `_merge_bullets` appends exactly the candidate items whose
trimmed text is not already present among the existing bullets. -/
theorem upsert_merge_preserves_manual_bullet
    (doc date name mid : String) (sug : MeetingSuggestions) (L : Line)
    (s e : Nat)
    (hfind : findSectionBounds (splitLinesK (normalizeContent doc.data))
      (sectionTemplate date.data name.data mid.data) = some (s, e))
    (hL : L ∈ splitLinesK (normalizeContent doc.data)) :
    List.Sublist (splitLinesK (normalizeContent doc.data))
        (upsertLines (splitLinesK (normalizeContent doc.data))
          (sectionTemplate date.data name.data mid.data) sug).1 ∧
    L ∈ (upsertLines (splitLinesK (normalizeContent doc.data))
        (sectionTemplate date.data name.data mid.data) sug).1 ∧
    (∃ A B, joinL (upsertLines (splitLinesK (normalizeContent doc.data))
        (sectionTemplate date.data name.data mid.data) sug).1 =
      A ++ (L ++ B)) ∧
    ∀ (ex : List Line) (its : List (List Char)),
      ∃ F, mergeBullets ex its = ex ++ F ∧
        ∀ l ∈ F, ∃ i ∈ its, l = '-' :: ' ' :: (pyStrip i ++ ['\n']) ∧
          pyStrip i ∉ existingBulletSet ex ∧ pyStrip i ≠ [] := by
  have hsub := upsertLines_update_sublist sug hfind
  have hmemL : L ∈ (upsertLines (splitLinesK (normalizeContent doc.data))
      (sectionTemplate date.data name.data mid.data) sug).1 :=
    hsub.subset hL
  refine ⟨hsub, hmemL, joinL_infix hmemL, ?_⟩
  intro ex its
  exact mergeBulletsGo_src ex (existingBulletSet ex) its

/-- **C4, witness.** The preservation theorem applied to a concrete
document whose `To Do` subsection holds a manual bullet. -/
theorem upsert_merge_preserves_manual_bullet_witness :
    List.Sublist (splitLinesK (normalizeContent
        ("## [2024-01-02] M  <!-- id:m1 -->\n### To Do\n- manual\n").data))
        (upsertLines (splitLinesK (normalizeContent
          ("## [2024-01-02] M  <!-- id:m1 -->\n### To Do\n- manual\n").data))
          (sectionTemplate "2024-01-02".data "M".data "m1".data)
          ⟨"", [], ["new item"], [], []⟩).1 ∧
    "- manual\n".data ∈ (upsertLines (splitLinesK (normalizeContent
        ("## [2024-01-02] M  <!-- id:m1 -->\n### To Do\n- manual\n").data))
        (sectionTemplate "2024-01-02".data "M".data "m1".data)
        ⟨"", [], ["new item"], [], []⟩).1 ∧
    (∃ A B, joinL (upsertLines (splitLinesK (normalizeContent
        ("## [2024-01-02] M  <!-- id:m1 -->\n### To Do\n- manual\n").data))
        (sectionTemplate "2024-01-02".data "M".data "m1".data)
        ⟨"", [], ["new item"], [], []⟩).1 = A ++ ("- manual\n".data ++ B)) ∧
    ∀ (ex : List Line) (its : List (List Char)),
      ∃ F, mergeBullets ex its = ex ++ F ∧
        ∀ l ∈ F, ∃ i ∈ its, l = '-' :: ' ' :: (pyStrip i ++ ['\n']) ∧
          pyStrip i ∉ existingBulletSet ex ∧ pyStrip i ≠ [] :=
  upsert_merge_preserves_manual_bullet
    "## [2024-01-02] M  <!-- id:m1 -->\n### To Do\n- manual\n"
    "2024-01-02" "M" "m1" ⟨"", [], ["new item"], [], []⟩
    "- manual\n".data 0 3 (by decide) (by decide)

end AibaTS
